import Mathlib

/-!
Verification of the MCP XML bridge (`internal/mcp/xml_bridge.go`).

The Go file implements an incremental stream tokenizer that separates plain
text from embedded `<toolname>JSON</toolname>` tool-call elements.  We give a
shallow embedding of that file: Go strings become `List Char`, the process-wide
`uint64` tool-use-id counter becomes an explicitly threaded `Nat` reduced
modulo `2 ^ 64`, and a Go runtime panic (out-of-range string slice) becomes
`Except.error ()`.  Every definition mirrors the corresponding Go function;
the two regular expressions used by `TryParseMcpToolCallXml` are modelled by
direct scanning functions implementing RE2's leftmost-match semantics for
those particular patterns.
-/

namespace McpXml

/-- Go strings (the file only ever handles ASCII data, so bytes = chars). -/
abbrev Str := List Char

/-- Left brace character, written via its code point. -/
def lbrace : Char := Char.ofNat 123

/-- Right brace character, written via its code point. -/
def rbrace : Char := Char.ofNat 125

/-- Index of the first suffix of the input satisfying `p` (a leftmost-match
scanner; both `strings.Index` and the anchored close-pattern search below are
instances of it). -/
def scanFirst (p : Str → Bool) : Str → Option Nat
  | [] => if p [] then some 0 else none
  | c :: t =>
    if p (c :: t) then some 0
    else (scanFirst p t).map (fun k => k + 1)

/-- Models `strings.Index(hay, needle)`: index of the first occurrence of
`needle` in `hay` (`none` for Go's `-1`). -/
def strIndex (needle : Str) : Str → Option Nat :=
  scanFirst (fun s => needle.isPrefixOf s)

/-- Models `strings.LastIndex(hay, "<")` for the single character `'<'`. -/
def lastIndexOfChar (ch : Char) : Str → Option Nat
  | [] => none
  | c :: t =>
    match lastIndexOfChar ch t with
    | some k => some (k + 1)
    | none => if c = ch then some 0 else none

/-- The boundary characters accepted after an opening tag name in
`findNextToolStartIndex`: `>`, `/`, space, tab, newline, carriage return. -/
def isBoundaryChar (c : Char) : Bool :=
  c = '>' || c = '/' || c = ' ' || c = '\t' || c = '\n' || c = '\r'

/-- Models the boundary test of `findNextToolStartIndex`: the check is applied
only when position `pos` is inside the buffer (`idx+len(open) < len(buffer)`);
past the end of the buffer the candidate is accepted. -/
def boundaryOkAt (buf : Str) (pos : Nat) : Bool :=
  match buf.get? pos with
  | none => true
  | some c => isBoundaryChar c

/-! ## JSON values and a model of `encoding/json.Unmarshal` into a map

The Go code calls `json.Unmarshal([]byte(inner), &parsed)` with
`parsed : map[string]interface{}`; that call succeeds exactly when `inner` is
one complete JSON value (surrounded by optional whitespace) whose top level is
an object — or the literal `null`, which `Unmarshal` documents as a no-op
that returns a nil error and leaves the map nil.  We model this with a small
recursive-descent JSON reader.  Number values are kept as their lexemes: the
bridge never looks at argument values, only at the success/failure of
decoding and at the (empty or not) field list.
-/

/-- JSON values as produced by `encoding/json` for `interface{}` targets. -/
inductive JsonVal where
  | jnull : JsonVal
  | jbool : Bool → JsonVal
  | jnum : Str → JsonVal
  | jstr : Str → JsonVal
  | jarr : List JsonVal → JsonVal
  | jobj : List (Str × JsonVal) → JsonVal

/-- JSON insignificant whitespace (RFC 8259): space, tab, newline, CR. -/
def isJsonWs (c : Char) : Bool :=
  c = ' ' || c = '\t' || c = '\n' || c = '\r'

/-- ASCII decimal digit test. -/
def isDigit (c : Char) : Bool := '0' ≤ c && c ≤ '9'

/-- ASCII hex digit test (for `\u` escapes). -/
def isHexDigit (c : Char) : Bool :=
  isDigit c || ('a' ≤ c && c ≤ 'f') || ('A' ≤ c && c ≤ 'F')

/-- Body of a JSON string after the opening quote: returns the decoded
content and the remaining input after the closing quote. -/
def parseJsonStringBody : Nat → Str → Option (Str × Str)
  | 0, _ => none
  | _, [] => none
  | fuel + 1, c :: t =>
    if c = '"' then some ([], t)
    else if c = '\\' then
      match t with
      | [] => none
      | e :: t2 =>
        if e = '"' || e = '\\' || e = '/' then
          (parseJsonStringBody fuel t2).map (fun r => (e :: r.1, r.2))
        else if e = 'b' then
          (parseJsonStringBody fuel t2).map (fun r => (Char.ofNat 8 :: r.1, r.2))
        else if e = 'f' then
          (parseJsonStringBody fuel t2).map (fun r => (Char.ofNat 12 :: r.1, r.2))
        else if e = 'n' then
          (parseJsonStringBody fuel t2).map (fun r => ('\n' :: r.1, r.2))
        else if e = 'r' then
          (parseJsonStringBody fuel t2).map (fun r => ('\r' :: r.1, r.2))
        else if e = 't' then
          (parseJsonStringBody fuel t2).map (fun r => ('\t' :: r.1, r.2))
        else if e = 'u' then
          match t2 with
          | h1 :: h2 :: h3 :: h4 :: t3 =>
            if isHexDigit h1 && isHexDigit h2 && isHexDigit h3 && isHexDigit h4 then
              (parseJsonStringBody fuel t3).map (fun r => ('?' :: r.1, r.2))
            else none
          | _ => none
        else none
    else if c.toNat < 32 then none
    else (parseJsonStringBody fuel t).map (fun r => (c :: r.1, r.2))

/-- JSON number lexeme: `-? (0 | [1-9][0-9]*) (. [0-9]+)? ([eE][+-]?[0-9]+)?`.
Returns the lexeme and the remaining input. -/
def parseJsonNumber (s : Str) : Option (Str × Str) :=
  let (sign, s1) : Str × Str :=
    match s with
    | '-' :: t => (['-'], t)
    | _ => ([], s)
  match s1 with
  | [] => none
  | c :: t =>
    if c = '0' then
      let intPart := [c]
      let rest := t
      let (frac, rest2) : Str × Str :=
        match rest with
        | '.' :: u =>
          let ds := u.takeWhile isDigit
          if ds = [] then (['!'], u) else ('.' :: ds, u.drop ds.length)
        | _ => ([], rest)
      if frac = ['!'] then none else
      let (ex, rest3) : Str × Str :=
        match rest2 with
        | e :: u =>
          if e = 'e' || e = 'E' then
            let (es, u2) : Str × Str :=
              match u with
              | p :: v => if p = '+' || p = '-' then ([p], v) else ([], u)
              | [] => ([], u)
            let ds := u2.takeWhile isDigit
            if ds = [] then (['!'], u2) else (e :: (es ++ ds), u2.drop ds.length)
          else ([], rest2)
        | [] => ([], rest2)
      if ex = ['!'] then none else
      some (sign ++ intPart ++ frac ++ ex, rest3)
    else if isDigit c then
      let ds := (c :: t).takeWhile isDigit
      let rest := (c :: t).drop ds.length
      let (frac, rest2) : Str × Str :=
        match rest with
        | '.' :: u =>
          let xs := u.takeWhile isDigit
          if xs = [] then (['!'], u) else ('.' :: xs, u.drop xs.length)
        | _ => ([], rest)
      if frac = ['!'] then none else
      let (ex, rest3) : Str × Str :=
        match rest2 with
        | e :: u =>
          if e = 'e' || e = 'E' then
            let (es, u2) : Str × Str :=
              match u with
              | p :: v => if p = '+' || p = '-' then ([p], v) else ([], u)
              | [] => ([], u)
            let xs := u2.takeWhile isDigit
            if xs = [] then (['!'], u2) else (e :: (es ++ xs), u2.drop xs.length)
          else ([], rest2)
        | [] => ([], rest2)
      if ex = ['!'] then none else
      some (sign ++ ds ++ frac ++ ex, rest3)
    else none

mutual

/-- One JSON value starting at the current position (no leading whitespace
skipping; callers skip whitespace first).  Returns the value and the rest. -/
def parseJsonValue : Nat → Str → Option (JsonVal × Str)
  | 0, _ => none
  | fuel + 1, s =>
    match s with
    | [] => none
    | c :: t =>
      if c = '"' then
        (parseJsonStringBody (fuel + 1) t).map (fun r => (JsonVal.jstr r.1, r.2))
      else if c = lbrace then
        parseJsonObjectBody fuel (t.dropWhile isJsonWs)
      else if c = '[' then
        parseJsonArrayBody fuel (t.dropWhile isJsonWs)
      else if ['n', 'u', 'l', 'l'].isPrefixOf s then
        some (JsonVal.jnull, s.drop 4)
      else if ['t', 'r', 'u', 'e'].isPrefixOf s then
        some (JsonVal.jbool true, s.drop 4)
      else if ['f', 'a', 'l', 's', 'e'].isPrefixOf s then
        some (JsonVal.jbool false, s.drop 5)
      else
        (parseJsonNumber s).map (fun r => (JsonVal.jnum r.1, r.2))

/-- Object body after the opening brace and following whitespace. -/
def parseJsonObjectBody : Nat → Str → Option (JsonVal × Str)
  | 0, _ => none
  | fuel + 1, s =>
    match s with
    | [] => none
    | c :: t =>
      if c = rbrace then some (JsonVal.jobj [], t)
      else parseJsonObjectMembers (fuel + 1) (c :: t)

/-- One or more `"key" : value` members separated by commas, then the
closing brace. -/
def parseJsonObjectMembers : Nat → Str → Option (JsonVal × Str)
  | 0, _ => none
  | fuel + 1, s =>
    match s with
    | '"' :: t =>
      match parseJsonStringBody (fuel + 1) t with
      | none => none
      | some (key, rest) =>
        match rest.dropWhile isJsonWs with
        | ':' :: rest2 =>
          match parseJsonValue fuel (rest2.dropWhile isJsonWs) with
          | none => none
          | some (v, rest3) =>
            match rest3.dropWhile isJsonWs with
            | ',' :: rest4 =>
              match parseJsonObjectMembers fuel (rest4.dropWhile isJsonWs) with
              | some (JsonVal.jobj fs, rest5) => some (JsonVal.jobj ((key, v) :: fs), rest5)
              | _ => none
            | d :: rest4 =>
              if d = rbrace then some (JsonVal.jobj [(key, v)], rest4) else none
            | [] => none
        | _ => none
    | _ => none

/-- Array body after the opening bracket and following whitespace. -/
def parseJsonArrayBody : Nat → Str → Option (JsonVal × Str)
  | 0, _ => none
  | fuel + 1, s =>
    match s with
    | [] => none
    | c :: t =>
      if c = ']' then some (JsonVal.jarr [], t)
      else parseJsonArrayElems (fuel + 1) (c :: t)

/-- One or more array elements separated by commas, then `]`. -/
def parseJsonArrayElems : Nat → Str → Option (JsonVal × Str)
  | 0, _ => none
  | fuel + 1, s =>
    match parseJsonValue fuel s with
    | none => none
    | some (v, rest) =>
      match rest.dropWhile isJsonWs with
      | ',' :: rest2 =>
        match parseJsonArrayElems fuel (rest2.dropWhile isJsonWs) with
        | some (JsonVal.jarr vs, rest3) => some (JsonVal.jarr (v :: vs), rest3)
        | _ => none
      | ']' :: rest2 => some (JsonVal.jarr [v], rest2)
      | _ => none

end

/-- A whole JSON text: one value with optional surrounding whitespace and
nothing else.  This is when `json.Unmarshal` into `interface{}` succeeds. -/
def jsonParse (s : Str) : Option JsonVal :=
  match parseJsonValue (2 * s.length + 2) (s.dropWhile isJsonWs) with
  | some (v, rest) => if rest.dropWhile isJsonWs = [] then some v else none
  | none => none

/-- Models `json.Unmarshal([]byte(s), &m)` with `m : map[string]interface{}`:
succeeds iff `s` is a JSON text whose top-level value is an object, or the
literal `null` — unmarshaling `null` into a map is a documented no-op with a
nil error that leaves the map nil, modelled as the empty field list.  Every
other top level (array, string, number, boolean) fails with a type error. -/
def jsonUnmarshalObject (s : Str) : Option (List (Str × JsonVal)) :=
  match jsonParse s with
  | some (JsonVal.jobj fs) => some fs
  | some JsonVal.jnull => some []
  | _ => none

/-- A parsed MCP tool call (`McpToolCall` in the source). -/
structure McpToolCall where
  name : Str
  input : List (Str × JsonVal)
  id : Str

/-! ## Tool-use identifiers

`MakeToolUseID` does `fmt.Sprintf("%s-%d", name, atomic.AddUint64(&ctr, 1))`.
The counter is a `uint64`, so the increment wraps modulo `2 ^ 64`; we thread
the counter explicitly and return the new value together with the id. -/

/-- `2 ^ 64`, the modulus of the `uint64` counter. -/
def U64 : Nat := 2 ^ 64

/-- One decimal digit as a character (used only with arguments `< 10`). -/
def digitCharOf (n : Nat) : Char :=
  match n with
  | 0 => '0' | 1 => '1' | 2 => '2' | 3 => '3' | 4 => '4'
  | 5 => '5' | 6 => '6' | 7 => '7' | 8 => '8' | _ => '9'

/-- Decimal digits of `n`, most significant first (fuel-driven). -/
def decDigits : Nat → Nat → Str
  | 0, _ => []
  | fuel + 1, n =>
    if n < 10 then [digitCharOf n]
    else decDigits fuel (n / 10) ++ [digitCharOf (n % 10)]

/-- Decimal representation of a natural number (models `fmt.Sprintf("%d", n)`). -/
def natDec (n : Nat) : Str := decDigits (n + 1) n

/-- Models `MakeToolUseID`: increments the `uint64` counter (wrapping modulo
`2 ^ 64`) and produces `name ++ "-" ++ decimal(new counter)`.  Returns the id
and the new counter value. -/
def MakeToolUseID (name : Str) (c : Nat) : Str × Nat :=
  let c1 := (c + 1) % U64
  (name ++ '-' :: natDec c1, c1)

/-- Runs `MakeToolUseID` once per listed name, threading the process-wide
counter, and collects the generated ids in call order. -/
def runMakeToolUseID (c : Nat) : List Str → List Str
  | [] => []
  | n :: rest =>
    let r := MakeToolUseID n c
    r.1 :: runMakeToolUseID r.2 rest

/-! ## Feature toggle -/

/-- ASCII lowercase conversion, as `strings.ToLower` acts on ASCII data. -/
def toLowerAscii (s : Str) : Str :=
  s.map (fun c => if 'A' ≤ c && c ≤ 'Z' then Char.ofNat (c.toNat + 32) else c)

/-- Whitespace trimmed by `strings.TrimSpace` (ASCII part of `unicode.IsSpace`:
space, tab, newline, vertical tab, form feed, carriage return). -/
def isGoSpace (c : Char) : Bool :=
  c = ' ' || c = '\t' || c = '\n' || c = Char.ofNat 11 || c = Char.ofNat 12 || c = '\r'

/-- Models `strings.TrimSpace` on ASCII data. -/
def trimSpace (s : Str) : Str :=
  ((s.dropWhile isGoSpace).reverse.dropWhile isGoSpace).reverse

/-- Models `IsMcpXmlEnabled`, with the raw environment-variable value passed
explicitly (`os.Getenv` returns `""` both for unset and empty). -/
def IsMcpXmlEnabled (raw : Str) : Bool :=
  if raw = [] then true
  else
    let v := toLowerAscii (trimSpace raw)
    !(v = ['0'] || v = ['f', 'a', 'l', 's', 'e'] || v = ['n', 'o'] || v = ['o', 'f', 'f'])

/-! ## The two regular expressions of `TryParseMcpToolCallXml`

`openPattern  = ^\s*<NAME(\s[^>]*)?>` and `closePattern = </NAME\s*>\s*$`,
where `NAME` is the quoted tool name.  Both are used through
`FindStringIndex`, i.e. RE2 leftmost-match.  For these patterns the match is
deterministic, so we model them by direct scanning:

* the open pattern matches iff after the maximal run of leading `\s`
  characters the text continues with `<NAME` and then either an immediate
  `>` or one `\s` character followed by the (possibly empty) run of
  non-`>` characters and a `>`; the model returns the end of the match;
* the close pattern matches at `i` iff the text at `i` is `</NAME`, then a
  run of `\s`, then `>`, then a run of `\s` reaching the end of the text;
  the model returns the smallest such `i`. -/

/-- Go RE2 `\s`: tab, newline, form feed, carriage return, space. -/
def isRegexSpace (c : Char) : Bool :=
  c = '\t' || c = '\n' || c = Char.ofNat 12 || c = '\r' || c = ' '

/-- End index of the (unique, anchored) match of `^\s*<NAME(\s[^>]*)?>`,
`none` when the pattern does not match; this is `openMatch[1]` in Go. -/
def matchOpenEnd (xml : Str) (name : Str) : Option Nat :=
  let ws := (xml.takeWhile isRegexSpace).length
  if ('<' :: name).isPrefixOf (xml.drop ws) then
    let p := ws + 1 + name.length
    match xml.get? p with
    | some c =>
      if c = '>' then some (p + 1)
      else if isRegexSpace c then
        match strIndex ['>'] (xml.drop (p + 1)) with
        | some g => some (p + 1 + g + 1)
        | none => none
      else none
    | none => none
  else none

/-- Whether `</NAME\s*>\s*$` matches the whole suffix `s`. -/
def closeMatchHere (name : Str) (s : Str) : Bool :=
  if ('<' :: '/' :: name).isPrefixOf s then
    match (s.drop (2 + name.length)).dropWhile isRegexSpace with
    | '>' :: t => t.all isRegexSpace
    | _ => false
  else false

/-- Start index of the leftmost match of `</NAME\s*>\s*$`, `none` when the
pattern does not match; this is `closeMatch[0]` in Go. -/
def matchCloseStart (name : Str) : Str → Option Nat :=
  scanFirst (closeMatchHere name)

/-- Models `TryParseMcpToolCallXml`.  The Go function computes
`inner := xmlText[openMatch[1]:closeMatch[0]]`; when `openMatch[1]` exceeds
`closeMatch[0]` (the leftmost close-pattern match starts inside the opening
tag's attribute span) this Go slice expression panics at runtime, which we
model as `Except.error ()`.  Otherwise the result is `none` (Go's
`(nil, false)`) or the parsed call, together with the new counter value. -/
def TryParseMcpToolCallXml (xmlText toolName : Str) (c : Nat) :
    Except Unit (Option McpToolCall × Nat) :=
  if toolName = [] || xmlText = [] then .ok (none, c)
  else
    match matchOpenEnd xmlText toolName, matchCloseStart toolName xmlText with
    | some oe, some cs =>
      if oe ≤ cs then
        let inner := trimSpace ((xmlText.drop oe).take (cs - oe))
        if inner = [] then
          let r := MakeToolUseID toolName c
          .ok (some ⟨toolName, [], r.1⟩, r.2)
        else
          match jsonUnmarshalObject inner with
          | none => .ok (none, c)
          | some fields =>
            let r := MakeToolUseID toolName c
            .ok (some ⟨toolName, fields, r.1⟩, r.2)
      else .error ()
    | _, _ => .ok (none, c)

/-! ## The streaming parser -/

/-- Parser state (`XmlStreamParser`).  Go stores the known names in a map with
nondeterministic iteration order; we model the name collection as a list, so
each list order is one possible behaviour of the Go map. -/
structure XmlStreamParser where
  toolNames : List Str
  buffer : Str

/-- Models `NewXmlStreamParser`: keeps the given names minus empty ones,
starting with an empty buffer. -/
def NewXmlStreamParser (toolNames : List Str) : XmlStreamParser :=
  ⟨toolNames.filter (fun n => n ≠ []), []⟩

/-- One emitted segment (`ParseResult`): literal text or a decoded tool call.
The Go struct exposes only `Name` and `Input` for tool results (the generated
id stays internal to `TryParseMcpToolCallXml`). -/
inductive ParseResult where
  | text : Str → ParseResult
  | tool : Str → List (Str × JsonVal) → ParseResult

/-- One candidate inspection step of `findNextToolStartIndex`'s loop body:
looks at the first occurrence of `<name` in `buf`, rejects it unless the
following character is a boundary character (or the buffer ends), and keeps
the smaller index (strictly, so an earlier-iterated name wins ties). -/
def considerName (buf : Str) (best : Option (Nat × Str)) (name : Str) :
    Option (Nat × Str) :=
  match strIndex ('<' :: name) buf with
  | none => best
  | some idx =>
    if boundaryOkAt buf (idx + 1 + name.length) then
      match best with
      | none => some (idx, name)
      | some (b, _) => if idx < b then some (idx, name) else best
    else best

/-- Models `findNextToolStartIndex` (`none` for Go's `(-1, "")`). -/
def findNextToolStartIndex (names : List Str) (buf : Str) : Option (Nat × Str) :=
  names.foldl (considerName buf) none

/-- Models `findCloseTagEndIndex`: first occurrence of `</name`, then the
first `>` strictly after it; returns the index just past that `>`. -/
def findCloseTagEndIndex (buf : Str) (name : Str) : Option Nat :=
  match strIndex ('<' :: '/' :: name) buf with
  | none => none
  | some idx =>
    let after := idx + 2 + name.length
    if buf.length ≤ after then none
    else
      match strIndex ['>'] (buf.drop after) with
      | some g => some (after + g + 1)
      | none => none

/-- Models `isPossibleToolTagPrefix` (kept under a neutral Lean name): `text`
starts with `<` and is a literal prefix of `<name` or `</name` for some
known name. -/
def isPossibleToolTagStart (names : List Str) (text : Str) : Bool :=
  if text.head? = some '<' then
    names.any (fun name =>
      text.isPrefixOf ('<' :: name) || text.isPrefixOf ('<' :: '/' :: name))
  else false

/-- Models `splitBufferForPartialTag`: `(emit, keep)` where `keep` is the
suffix from the last `<` when that suffix could still grow into a known
opening or closing tag, and empty otherwise. -/
def splitBufferForPartialTag (names : List Str) (buf : Str) : Str × Str :=
  match lastIndexOfChar '<' buf with
  | none => (buf, [])
  | some l =>
    let tail := buf.drop l
    if isPossibleToolTagStart names tail then (buf.take l, tail)
    else (buf, [])

/-- The `for` loop of `PushText`, with explicit fuel (each recursive step
consumes at least one buffered character, so any fuel above the buffer
length is enough).  Returns the emitted segments, the final buffer, and the
final id counter; `Except.error ()` propagates the modelled Go panic. -/
def pushLoop : Nat → List Str → Str → Nat → Except Unit (List ParseResult × Str × Nat)
  | 0, _, buf, c => .ok ([], buf, c)
  | fuel + 1, names, buf, c =>
    match findNextToolStartIndex names buf with
    | none =>
      let ek := splitBufferForPartialTag names buf
      .ok ((if ek.1 = [] then [] else [ParseResult.text ek.1]), ek.2, c)
    | some (index, name) =>
      if name = [] then
        let ek := splitBufferForPartialTag names buf
        .ok ((if ek.1 = [] then [] else [ParseResult.text ek.1]), ek.2, c)
      else
        let preSegs := if 0 < index then [ParseResult.text (buf.take index)] else []
        let buf1 := buf.drop index
        match findCloseTagEndIndex buf1 name with
        | none => .ok (preSegs, buf1, c)
        | some closeEnd =>
          let xml := buf1.take closeEnd
          let buf2 := buf1.drop closeEnd
          match TryParseMcpToolCallXml xml name c with
          | .error e => .error e
          | .ok (parsed, c1) =>
            let seg :=
              match parsed with
              | some call => ParseResult.tool call.name call.input
              | none => ParseResult.text xml
            match pushLoop fuel names buf2 c1 with
            | .error e => .error e
            | .ok (rs, bufF, cF) => .ok (preSegs ++ seg :: rs, bufF, cF)

/-- Models `PushText`: appends `text` to the buffer (no-op on empty input)
and drains all currently determinable segments. -/
def PushText (p : XmlStreamParser) (c : Nat) (text : Str) :
    Except Unit (List ParseResult × XmlStreamParser × Nat) :=
  if text = [] then .ok ([], p, c)
  else
    match pushLoop ((p.buffer ++ text).length + 1) p.toolNames (p.buffer ++ text) c with
    | .error e => .error e
    | .ok (rs, buf1, c1) => .ok (rs, ⟨p.toolNames, buf1⟩, c1)

/-- Models `Flush`: emits the whole remaining buffer (if non-empty) as one
text segment and clears it. -/
def Flush (p : XmlStreamParser) : List ParseResult × XmlStreamParser :=
  if p.buffer = [] then ([], p)
  else ([ParseResult.text p.buffer], ⟨p.toolNames, []⟩)

/-- Drives a whole stream: a fresh parser for the given names, one `PushText`
per chunk, then `Flush`; collects every emitted segment in order. -/
def runChunks (names : List Str) (chunks : List Str) : Except Unit (List ParseResult) :=
  let rec go (p : XmlStreamParser) (c : Nat) :
      List Str → Except Unit (List ParseResult)
    | [] => .ok (Flush p).1
    | t :: rest =>
      match PushText p c t with
      | .error e => .error e
      | .ok (rs, p1, c1) =>
        match go p1 c1 rest with
        | .error e => .error e
        | .ok rs2 => .ok (rs ++ rs2)
  go (NewXmlStreamParser names) 0 chunks

/-- Concatenation of all text-segment contents, in order. -/
def textConcat : List ParseResult → Str
  | [] => []
  | ParseResult.text t :: rs => t ++ textConcat rs
  | ParseResult.tool _ _ :: rs => textConcat rs

/-- The names of the emitted tool segments, in order. -/
def toolSegNames : List ParseResult → List Str
  | [] => []
  | ParseResult.text _ :: rs => toolSegNames rs
  | ParseResult.tool n _ :: rs => n :: toolSegNames rs

/-- What the buffer may hold between `PushText` calls: nothing, or an
accepted-but-unclosed element starting at the front, or a trailing suffix
(starting at its only `<`) that is a literal prefix of a known opening or
closing tag form. -/
def BufferInvariant (names : List Str) (buf : Str) : Prop :=
  buf = [] ∨
  (∃ n, n ∈ names ∧ n ≠ [] ∧ ('<' :: n).isPrefixOf buf = true ∧
    boundaryOkAt buf (1 + n.length) = true ∧ findCloseTagEndIndex buf n = none) ∨
  (buf.head? = some '<' ∧ isPossibleToolTagStart names buf = true)

/-- Numeric value of a digit string (used to invert `natDec`). -/
def decValue (s : Str) : Nat :=
  List.foldl (fun a c => 10 * a + (c.toNat - 48)) 0 s

/-- Ordinary tag-name characters: anything except `<`, `>`, `/` and the
whitespace the patterns treat specially (real MCP names match this). -/
def isTagNameChar (c : Char) : Bool :=
  !(c = '<' || c = '>' || c = '/' || isRegexSpace c)

/-- The complete element `<b>{}</b>` for a tag name `b`. -/
def elemOf (b : Str) : Str :=
  '<' :: b ++ '>' :: lbrace :: rbrace :: '<' :: '/' :: b ++ ['>']

/-! ## Characterization lemmas for the scanners -/

lemma bool_tf {b : Bool} (h1 : b = true) (h2 : b = false) : False := by
  rw [h1] at h2
  exact Bool.noConfusion h2

lemma scanFirst_nil (p : Str → Bool) :
    scanFirst p [] = if p [] then some 0 else none := rfl

lemma scanFirst_cons (p : Str → Bool) (c : Char) (t : Str) :
    scanFirst p (c :: t) =
      if p (c :: t) then some 0 else (scanFirst p t).map (fun k => k + 1) := rfl

lemma scanFirst_eq_some_iff (p : Str → Bool) (hay : Str) (k : Nat) :
    scanFirst p hay = some k ↔
      (p (hay.drop k) = true ∧ ∀ j, j < k → p (hay.drop j) = false) := by
  induction hay generalizing k with
  | nil =>
    rw [scanFirst_nil]
    cases hp : p [] with
    | true =>
      rw [if_pos rfl]
      constructor
      · intro h
        obtain rfl : (0 : Nat) = k := Option.some.inj h
        exact ⟨by simpa using hp, fun j hj => absurd hj (Nat.not_lt_zero j)⟩
      · rintro ⟨h1, h2⟩
        obtain rfl : k = 0 := by
          by_contra hk
          exact bool_tf hp (by simpa using h2 0 (Nat.pos_of_ne_zero hk))
        rfl
    | false =>
      rw [if_neg (by simp)]
      constructor
      · intro h
        exact Option.noConfusion h
      · rintro ⟨h1, h2⟩
        exact (bool_tf (by simpa using h1) hp).elim
  | cons c t ih =>
    rw [scanFirst_cons]
    cases hp : p (c :: t) with
    | true =>
      rw [if_pos rfl]
      constructor
      · intro h
        obtain rfl : (0 : Nat) = k := Option.some.inj h
        exact ⟨by simpa using hp, fun j hj => absurd hj (Nat.not_lt_zero j)⟩
      · rintro ⟨h1, h2⟩
        obtain rfl : k = 0 := by
          by_contra hk
          exact bool_tf hp (by simpa using h2 0 (Nat.pos_of_ne_zero hk))
        rfl
    | false =>
      rw [if_neg (by simp)]
      cases k with
      | zero =>
        constructor
        · intro h
          rcases Option.map_eq_some'.mp h with ⟨k0, hk0, hk0e⟩
          exact absurd hk0e (by omega)
        · rintro ⟨h1, h2⟩
          exact (bool_tf (by simpa using h1) hp).elim
      | succ k' =>
        constructor
        · intro h
          rcases Option.map_eq_some'.mp h with ⟨k0, hk0, hk0e⟩
          obtain rfl : k0 = k' := by omega
          rcases (ih k0).mp hk0 with ⟨h1, h2⟩
          refine ⟨by simpa using h1, ?_⟩
          intro j hj
          cases j with
          | zero => simpa using hp
          | succ j' => simpa using h2 j' (by omega)
        · rintro ⟨h1, h2⟩
          refine Option.map_eq_some'.mpr ⟨k', ?_, rfl⟩
          refine (ih k').mpr ⟨by simpa using h1, ?_⟩
          intro j hj
          simpa using h2 (j + 1) (by omega)

lemma scanFirst_eq_none_iff (p : Str → Bool) (hay : Str) :
    scanFirst p hay = none ↔ ∀ j, p (hay.drop j) = false := by
  induction hay with
  | nil =>
    rw [scanFirst_nil]
    cases hp : p [] with
    | true =>
      rw [if_pos rfl]
      constructor
      · intro h
        exact Option.noConfusion h
      · intro h
        exact (bool_tf hp (by simpa using h 0)).elim
    | false =>
      rw [if_neg (by simp)]
      constructor
      · intro _ j
        simpa using hp
      · intro _
        rfl
  | cons c t ih =>
    rw [scanFirst_cons]
    cases hp : p (c :: t) with
    | true =>
      rw [if_pos rfl]
      constructor
      · intro h
        exact Option.noConfusion h
      · intro h
        exact (bool_tf hp (by simpa using h 0)).elim
    | false =>
      rw [if_neg (by simp)]
      rw [Option.map_eq_none', ih]
      constructor
      · intro h j
        cases j with
        | zero => simpa using hp
        | succ j' => simpa using h j'
      · intro h j
        simpa using h (j + 1)

lemma isPrefixOf_head_ne {a : Char} {r s : Str} (h : s.head? ≠ some a) :
    (a :: r).isPrefixOf s = false := by
  cases s with
  | nil => rfl
  | cons b t =>
    simp only [List.head?] at h
    have hba : (a == b) = false := by
      refine beq_eq_false_iff_ne.mpr ?_
      intro he
      exact h (by rw [he])
    simp [List.isPrefixOf, hba]

/-- Scanning a concatenation whose first part never matches. -/
lemma scanFirst_append_of_not (p : Str → Bool) (xs rest : Str)
    (h : ∀ i, i < xs.length → p ((xs ++ rest).drop i) = false) :
    scanFirst p (xs ++ rest) = (scanFirst p rest).map (fun k => k + xs.length) := by
  induction xs with
  | nil =>
    simp only [List.nil_append, List.length_nil]
    cases scanFirst p rest with
    | none => rfl
    | some k => simp
  | cons c t ih =>
    have h0 : p (c :: (t ++ rest)) = false := by simpa using h 0 (by simp)
    rw [List.cons_append, scanFirst_cons, if_neg (by simp [h0])]
    rw [ih (fun i hi => by simpa using h (i + 1) (by simp only [List.length_cons]; omega))]
    cases scanFirst p rest with
    | none => rfl
    | some k =>
      simp only [Option.map_some', List.length_cons, Nat.add_assoc]

/-! ## Characterization of the tag locator's fold -/

lemma considerName_none_eq (buf : Str) (acc : Option (Nat × Str)) (a : Str)
    (h1 : strIndex ('<' :: a) buf = none) : considerName buf acc a = acc := by
  simp [considerName, h1]

lemma considerName_bad_eq (buf : Str) (acc : Option (Nat × Str)) (a : Str) (idx : Nat)
    (h1 : strIndex ('<' :: a) buf = some idx)
    (h2 : boundaryOkAt buf (idx + 1 + a.length) = false) :
    considerName buf acc a = acc := by
  simp [considerName, h1, h2]

lemma considerName_good_none_eq (buf : Str) (a : Str) (idx : Nat)
    (h1 : strIndex ('<' :: a) buf = some idx)
    (h2 : boundaryOkAt buf (idx + 1 + a.length) = true) :
    considerName buf none a = some (idx, a) := by
  simp [considerName, h1, h2]

lemma considerName_good_some_eq (buf : Str) (a : Str) (idx bi : Nat) (bn : Str)
    (h1 : strIndex ('<' :: a) buf = some idx)
    (h2 : boundaryOkAt buf (idx + 1 + a.length) = true) :
    considerName buf (some (bi, bn)) a =
      if idx < bi then some (idx, a) else some (bi, bn) := by
  simp [considerName, h1, h2]

lemma considerName_eq_or (buf : Str) (acc : Option (Nat × Str)) (a : Str) :
    considerName buf acc a = acc ∨
      ∃ idx, strIndex ('<' :: a) buf = some idx ∧
        boundaryOkAt buf (idx + 1 + a.length) = true ∧
        considerName buf acc a = some (idx, a) := by
  cases h1 : strIndex ('<' :: a) buf with
  | none => exact Or.inl (considerName_none_eq buf acc a h1)
  | some idx =>
    cases h2 : boundaryOkAt buf (idx + 1 + a.length) with
    | false => exact Or.inl (considerName_bad_eq buf acc a idx h1 h2)
    | true =>
      cases acc with
      | none => exact Or.inr ⟨idx, rfl, h2, considerName_good_none_eq buf a idx h1 h2⟩
      | some b =>
        cases b with
        | mk bi bn =>
          by_cases h3 : idx < bi
          · refine Or.inr ⟨idx, rfl, h2, ?_⟩
            rw [considerName_good_some_eq buf a idx bi bn h1 h2, if_pos h3]
          · refine Or.inl ?_
            rw [considerName_good_some_eq buf a idx bi bn h1 h2, if_neg h3]

lemma considerName_some_le (buf : Str) (acc : Option (Nat × Str)) (a : Str) (bi : Nat)
    (bn : Str) (h : acc = some (bi, bn)) :
    ∃ ci cn, considerName buf acc a = some (ci, cn) ∧ ci ≤ bi := by
  subst h
  cases h1 : strIndex ('<' :: a) buf with
  | none => exact ⟨bi, bn, considerName_none_eq buf _ a h1, le_refl bi⟩
  | some idx =>
    cases h2 : boundaryOkAt buf (idx + 1 + a.length) with
    | false => exact ⟨bi, bn, considerName_bad_eq buf _ a idx h1 h2, le_refl bi⟩
    | true =>
      by_cases h3 : idx < bi
      · refine ⟨idx, a, ?_, by omega⟩
        rw [considerName_good_some_eq buf a idx bi bn h1 h2, if_pos h3]
      · refine ⟨bi, bn, ?_, le_refl bi⟩
        rw [considerName_good_some_eq buf a idx bi bn h1 h2, if_neg h3]

lemma considerName_cand_le (buf : Str) (acc : Option (Nat × Str)) (a : Str) (j : Nat)
    (hj : strIndex ('<' :: a) buf = some j)
    (hb : boundaryOkAt buf (j + 1 + a.length) = true) :
    ∃ ci cn, considerName buf acc a = some (ci, cn) ∧ ci ≤ j := by
  cases acc with
  | none => exact ⟨j, a, considerName_good_none_eq buf a j hj hb, le_refl j⟩
  | some b =>
    cases b with
    | mk bi bn =>
      by_cases h3 : j < bi
      · refine ⟨j, a, ?_, le_refl j⟩
        rw [considerName_good_some_eq buf a j bi bn hj hb, if_pos h3]
      · refine ⟨bi, bn, ?_, by omega⟩
        rw [considerName_good_some_eq buf a j bi bn hj hb, if_neg h3]

lemma foldl_considerName_none (buf : Str) :
    ∀ (l : List Str) (acc : Option (Nat × Str)),
      l.foldl (considerName buf) acc = none →
      acc = none ∧ ∀ m ∈ l, ∀ j, strIndex ('<' :: m) buf = some j →
        boundaryOkAt buf (j + 1 + m.length) = false := by
  intro l
  induction l with
  | nil =>
    intro acc h
    exact ⟨h, by simp⟩
  | cons a l ih =>
    intro acc h
    rw [List.foldl_cons] at h
    rcases ih _ h with ⟨hstep, hrest⟩
    have hacc : acc = none ∧ ∀ j, strIndex ('<' :: a) buf = some j →
        boundaryOkAt buf (j + 1 + a.length) = false := by
      rcases considerName_eq_or buf acc a with he | ⟨idx, h1, h2, h3⟩
      · refine ⟨by rw [← he]; exact hstep, ?_⟩
        intro j hj
        cases hbv : boundaryOkAt buf (j + 1 + a.length) with
        | false => rfl
        | true =>
          rcases considerName_cand_le buf acc a j hj hbv with ⟨ci, cn, hc, -⟩
          rw [hc] at hstep
          exact Option.noConfusion hstep
      · rw [h3] at hstep
        exact Option.noConfusion hstep
    refine ⟨hacc.1, ?_⟩
    intro m hm j hj
    rcases List.mem_cons.mp hm with rfl | hm'
    · exact hacc.2 j hj
    · exact hrest m hm' j hj

lemma foldl_considerName_some (buf : Str) :
    ∀ (l : List Str) (acc : Option (Nat × Str)) (i : Nat) (n : Str),
      l.foldl (considerName buf) acc = some (i, n) →
      (acc = some (i, n) ∨
        (n ∈ l ∧ strIndex ('<' :: n) buf = some i ∧
          boundaryOkAt buf (i + 1 + n.length) = true)) ∧
      (∀ m ∈ l, ∀ j, strIndex ('<' :: m) buf = some j →
          boundaryOkAt buf (j + 1 + m.length) = true → i ≤ j) ∧
      (∀ bi bn, acc = some (bi, bn) → i ≤ bi) := by
  intro l
  induction l with
  | nil =>
    intro acc i n h
    refine ⟨Or.inl h, by simp, ?_⟩
    intro bi bn hacc
    rw [hacc] at h
    have hbi : bi = i := congrArg Prod.fst (Option.some.inj h)
    omega
  | cons a l ih =>
    intro acc i n h
    rw [List.foldl_cons] at h
    rcases ih _ i n h with ⟨hc, hmin, hacc⟩
    refine ⟨?_, ?_, ?_⟩
    · rcases hc with hstep | ⟨hn, hsi, hbd⟩
      · rcases considerName_eq_or buf acc a with he | ⟨idx, h1, h2, h3⟩
        · exact Or.inl (by rw [← he]; exact hstep)
        · rw [h3] at hstep
          have hidx : idx = i := congrArg Prod.fst (Option.some.inj hstep)
          have han : a = n := congrArg Prod.snd (Option.some.inj hstep)
          subst hidx
          subst han
          exact Or.inr ⟨List.mem_cons_self a l, h1, h2⟩
      · exact Or.inr ⟨List.mem_cons_of_mem a hn, hsi, hbd⟩
    · intro m hm j hjm hbm
      rcases List.mem_cons.mp hm with rfl | hm'
      · rcases considerName_cand_le buf acc m j hjm hbm with ⟨ci, cn, hcn, hle⟩
        exact le_trans (hacc ci cn hcn) hle
      · exact hmin m hm' j hjm hbm
    · intro bi bn haccEq
      rcases considerName_some_le buf acc a bi bn haccEq with ⟨ci, cn, hcn, hle⟩
      exact le_trans (hacc ci cn hcn) hle

/-- When the locator reports no candidate, every first occurrence of every
known name's opening tag fails the boundary rule. -/
lemma findNext_none (names : List Str) (buf : Str)
    (h : findNextToolStartIndex names buf = none) :
    ∀ m ∈ names, ∀ j, strIndex ('<' :: m) buf = some j →
      boundaryOkAt buf (j + 1 + m.length) = false :=
  (foldl_considerName_none buf names none h).2

/-- When the locator reports a candidate, it is a boundary-valid first
occurrence of a known name, of minimal index among all such. -/
lemma findNext_some (names : List Str) (buf : Str) (i : Nat) (n : Str)
    (h : findNextToolStartIndex names buf = some (i, n)) :
    (n ∈ names ∧ strIndex ('<' :: n) buf = some i ∧
      boundaryOkAt buf (i + 1 + n.length) = true) ∧
    ∀ m ∈ names, ∀ j, strIndex ('<' :: m) buf = some j →
      boundaryOkAt buf (j + 1 + m.length) = true → i ≤ j := by
  rcases foldl_considerName_some buf names none i n h with ⟨hc, hmin, -⟩
  rcases hc with habs | hcand
  · exact Option.noConfusion habs
  · exact ⟨hcand, hmin⟩

/-! ## Facts about the loop pieces -/

lemma strIndex_eq_some_iff (needle hay : Str) (k : Nat) :
    strIndex needle hay = some k ↔
      (needle.isPrefixOf (hay.drop k) = true ∧
        ∀ j, j < k → needle.isPrefixOf (hay.drop j) = false) :=
  scanFirst_eq_some_iff _ hay k

lemma strIndex_eq_none_iff (needle hay : Str) :
    strIndex needle hay = none ↔ ∀ j, needle.isPrefixOf (hay.drop j) = false :=
  scanFirst_eq_none_iff _ hay

lemma matchCloseStart_eq_some_iff (name hay : Str) (k : Nat) :
    matchCloseStart name hay = some k ↔
      (closeMatchHere name (hay.drop k) = true ∧
        ∀ j, j < k → closeMatchHere name (hay.drop j) = false) :=
  scanFirst_eq_some_iff _ hay k

lemma boundaryOkAt_drop (buf : Str) (i k : Nat) :
    boundaryOkAt (buf.drop i) k = boundaryOkAt buf (i + k) := by
  unfold boundaryOkAt
  rw [List.get?_drop]

lemma isPossible_head (names : List Str) (t : Str)
    (h : isPossibleToolTagStart names t = true) : t.head? = some '<' := by
  unfold isPossibleToolTagStart at h
  by_cases hh : t.head? = some '<'
  · exact hh
  · rw [if_neg hh] at h
    exact Bool.noConfusion h

/-- The kept part of `splitBufferForPartialTag` is empty or a viable partial
tag suffix. -/
lemma split_keep_spec (names : List Str) (buf : Str) :
    (splitBufferForPartialTag names buf).2 = [] ∨
      ((splitBufferForPartialTag names buf).2.head? = some '<' ∧
        isPossibleToolTagStart names (splitBufferForPartialTag names buf).2 = true) := by
  unfold splitBufferForPartialTag
  cases h : lastIndexOfChar '<' buf with
  | none => exact Or.inl rfl
  | some l =>
    cases hp : isPossibleToolTagStart names (buf.drop l) with
    | false => simp [hp]
    | true =>
      right
      constructor
      · simpa [hp] using isPossible_head names (buf.drop l) hp
      · simpa [hp] using hp

lemma findClose_some_facts (b n : Str) (ce : Nat)
    (h : findCloseTagEndIndex b n = some ce) : 1 ≤ ce ∧ b ≠ [] := by
  cases h1 : strIndex ('<' :: '/' :: n) b with
  | none => simp [findCloseTagEndIndex, h1] at h
  | some idx =>
    by_cases h2 : b.length ≤ idx + 2 + n.length
    · simp [findCloseTagEndIndex, h1, h2] at h
    · cases h3 : strIndex ['>'] (b.drop (idx + 2 + n.length)) with
      | none => simp [findCloseTagEndIndex, h1, h2, h3] at h
      | some g =>
        have he : idx + 2 + n.length + g + 1 = ce := by
          simpa [findCloseTagEndIndex, h1, h2, h3] using h
        refine ⟨by omega, ?_⟩
        intro hb
        subst hb
        exact h2 (by simp)

/-! ## Step-equation lemmas for the push loop -/

lemma pushLoop_none_eq (f : Nat) (names : List Str) (buf : Str) (c : Nat)
    (h : findNextToolStartIndex names buf = none) :
    pushLoop (f + 1) names buf c =
      .ok ((if (splitBufferForPartialTag names buf).1 = [] then []
        else [ParseResult.text (splitBufferForPartialTag names buf).1]),
        (splitBufferForPartialTag names buf).2, c) := by
  simp [pushLoop, h]

lemma pushLoop_emptyname_eq (f : Nat) (names : List Str) (buf : Str) (c : Nat) (i : Nat)
    (h : findNextToolStartIndex names buf = some (i, [])) :
    pushLoop (f + 1) names buf c =
      .ok ((if (splitBufferForPartialTag names buf).1 = [] then []
        else [ParseResult.text (splitBufferForPartialTag names buf).1]),
        (splitBufferForPartialTag names buf).2, c) := by
  simp [pushLoop, h]

lemma pushLoop_noclose_eq (f : Nat) (names : List Str) (buf : Str) (c : Nat)
    (i : Nat) (n : Str) (h : findNextToolStartIndex names buf = some (i, n)) (hn : n ≠ [])
    (hc : findCloseTagEndIndex (buf.drop i) n = none) :
    pushLoop (f + 1) names buf c =
      .ok ((if 0 < i then [ParseResult.text (buf.take i)] else []), buf.drop i, c) := by
  simp [pushLoop, h, hn, hc]

lemma pushLoop_close_eq (f : Nat) (names : List Str) (buf : Str) (c : Nat)
    (i : Nat) (n : Str) (ce : Nat)
    (h : findNextToolStartIndex names buf = some (i, n)) (hn : n ≠ [])
    (hc : findCloseTagEndIndex (buf.drop i) n = some ce) :
    pushLoop (f + 1) names buf c =
      match TryParseMcpToolCallXml ((buf.drop i).take ce) n c with
      | .error e => .error e
      | .ok (parsed, c1) =>
        match pushLoop f names ((buf.drop i).drop ce) c1 with
        | .error e => .error e
        | .ok (rs, bufF, cF) =>
          .ok ((if 0 < i then [ParseResult.text (buf.take i)] else []) ++
            (match parsed with
              | some call => ParseResult.tool call.name call.input
              | none => ParseResult.text ((buf.drop i).take ce)) :: rs, bufF, cF) := by
  simp [pushLoop, h, hn, hc]

/-! ## The buffer invariant (claim C7) -/

lemma split_invariant (names : List Str) (buf : Str) :
    BufferInvariant names (splitBufferForPartialTag names buf).2 := by
  rcases split_keep_spec names buf with h | ⟨h1, h2⟩
  · exact Or.inl h
  · exact Or.inr (Or.inr ⟨h1, h2⟩)

lemma pushLoop_invariant :
    ∀ (fuel : Nat) (names : List Str) (buf : Str) (c : Nat) (rs : List ParseResult)
      (buf' : Str) (c' : Nat),
      buf.length < fuel →
      pushLoop fuel names buf c = .ok (rs, buf', c') →
      BufferInvariant names buf' := by
  intro fuel
  induction fuel with
  | zero =>
    intro names buf c rs buf' c' hlen h
    exact absurd hlen (by omega)
  | succ f ih =>
    intro names buf c rs buf' c' hlen h
    cases hfn : findNextToolStartIndex names buf with
    | none =>
      rw [pushLoop_none_eq f names buf c hfn] at h
      have h' := Except.ok.inj h
      have hbuf : (splitBufferForPartialTag names buf).2 = buf' :=
        congrArg (fun x => x.2.1) h'
      rw [← hbuf]
      exact split_invariant names buf
    | some cand =>
      cases cand with
      | mk i n =>
        by_cases hn : n = []
        · subst hn
          rw [pushLoop_emptyname_eq f names buf c i hfn] at h
          have h' := Except.ok.inj h
          have hbuf : (splitBufferForPartialTag names buf).2 = buf' :=
            congrArg (fun x => x.2.1) h'
          rw [← hbuf]
          exact split_invariant names buf
        · cases hclose : findCloseTagEndIndex (buf.drop i) n with
          | none =>
            rw [pushLoop_noclose_eq f names buf c i n hfn hn hclose] at h
            have h' := Except.ok.inj h
            have hbuf : buf.drop i = buf' := congrArg (fun x => x.2.1) h'
            rw [← hbuf]
            rcases findNext_some names buf i n hfn with ⟨⟨hmem, hsi, hbd⟩, -⟩
            refine Or.inr (Or.inl ⟨n, hmem, hn, ?_, ?_, hclose⟩)
            · exact ((strIndex_eq_some_iff _ buf i).mp hsi).1
            · rw [boundaryOkAt_drop]
              have harith : i + (1 + n.length) = i + 1 + n.length := by omega
              rw [harith]
              exact hbd
          | some ce =>
            rw [pushLoop_close_eq f names buf c i n ce hfn hn hclose] at h
            rcases findClose_some_facts (buf.drop i) n ce hclose with ⟨hce, hne⟩
            have hi : i < buf.length := by
              by_contra hig
              exact hne (by simp [List.drop_eq_nil_iff_le]; omega)
            split at h
            · exact Except.noConfusion h
            · split at h
              · exact Except.noConfusion h
              · rename_i A0 A B C D E F G
                have h' := Except.ok.inj h
                have hbuf : E = buf' := congrArg (fun x => x.2.1) h'
                have hlen2 : ((buf.drop i).drop ce).length < f := by
                  simp only [List.length_drop]
                  omega
                rw [← hbuf]
                exact ih names ((buf.drop i).drop ce) A D E F hlen2 G

/-! ## Claim theorems -/

/-- **C1** (code bug).  The claim states chunk-invariance: any chunking of a
text, pushed in order and flushed, must produce the same observable output as
a single push of the whole text followed by flush.  The code violates this:
with known name `foo`, the text `<foox <foo>{}</foo>` pushed as one chunk is
emitted as a single text segment (the locator inspects only the first
occurrence of `<foo`, whose boundary check fails on `x`, and then gives up on
that name), while pushing `<foox ` and then `<foo>{}</foo>` yields the text
`<foox ` followed by a genuine `foo` tool segment.  Both the concatenated
text output and the tool-segment sequence differ between the two runs. -/
theorem C1_chunk_invariance_fails :
    runChunks [("foo".data)]
        [("<foox <foo>".data ++ [lbrace, rbrace] ++ "</foo>".data)] =
      .ok [ParseResult.text ("<foox <foo>".data ++ [lbrace, rbrace] ++ "</foo>".data)] ∧
    runChunks [("foo".data)]
        [("<foox ".data), ("<foo>".data ++ [lbrace, rbrace] ++ "</foo>".data)] =
      .ok [ParseResult.text ("<foox ".data), ParseResult.tool ("foo".data) []] ∧
    textConcat [ParseResult.text ("<foox <foo>".data ++ [lbrace, rbrace] ++ "</foo>".data)] ≠
      textConcat [ParseResult.text ("<foox ".data), ParseResult.tool ("foo".data) []] ∧
    toolSegNames [ParseResult.text ("<foox <foo>".data ++ [lbrace, rbrace] ++ "</foo>".data)] ≠
      toolSegNames [ParseResult.text ("<foox ".data), ParseResult.tool ("foo".data) []] := by
  refine ⟨?_, ?_, ?_, ?_⟩
  · with_unfolding_all rfl
  · with_unfolding_all rfl
  · decide
  · decide

/-- **C3** (code bug).  The claim says malformed payloads degrade to verbatim
text and that no error is ever raised.  But on the complete span `<x </x>`
(known name `x`) the leftmost match of the closing pattern starts at index 3,
inside the opening tag's attribute area, while the opening pattern's match
ends at index 7; Go's `xmlText[7:3]` slice then panics at runtime, so
`PushText` aborts instead of producing segments.  Our model returns the
panic value `Except.error ()` on exactly that input. -/
theorem C3_no_error_claim_fails :
    TryParseMcpToolCallXml ("<x </x>".data) ("x".data) 0 = .error () ∧
    PushText (NewXmlStreamParser [("x".data)]) 0 ("<x </x>".data) = .error () := by
  refine ⟨?_, ?_⟩
  · with_unfolding_all rfl
  · with_unfolding_all rfl

/-- **C5** (confirmed).  `Flush` on a non-empty buffer returns exactly one
text segment holding the entire buffered string and clears the buffer; on an
empty buffer it returns no segments and changes nothing. -/
theorem C5_flush_contract (p : XmlStreamParser) :
    (p.buffer ≠ [] →
      Flush p = ([ParseResult.text p.buffer], ⟨p.toolNames, []⟩)) ∧
    (p.buffer = [] → Flush p = ([], p)) := by
  constructor
  · intro h
    unfold Flush
    rw [if_neg h]
  · intro h
    unfold Flush
    rw [if_pos h]

/-- Witness for C5: a parser holding the undecided partial tag `<to` flushes
it as one text segment; an empty parser flushes nothing. -/
theorem C5_flush_contract_witness :
    Flush ⟨[("to".data)], ("<to".data)⟩ =
      ([ParseResult.text ("<to".data)], ⟨[("to".data)], []⟩) ∧
    Flush ⟨[("to".data)], []⟩ = ([], ⟨[("to".data)], []⟩) :=
  ⟨(C5_flush_contract _).1 (by decide), (C5_flush_contract _).2 rfl⟩

/-- **C7** (confirmed).  The buffer invariant: a fresh parser satisfies it,
and every `PushText` call that returns re-establishes it — the final buffer
is empty, or an accepted-but-unclosed element (an opening tag whose boundary
check passed at the front and whose closing `>` has not appeared), or a
trailing suffix starting at its only `<` that is a literal prefix of some
known name's opening or closing tag form. -/
theorem C7_buffer_invariant :
    (∀ (p : XmlStreamParser) (c : Nat) (text : Str) (rs : List ParseResult)
      (p' : XmlStreamParser) (c' : Nat),
      BufferInvariant p.toolNames p.buffer →
      PushText p c text = .ok (rs, p', c') →
      BufferInvariant p'.toolNames p'.buffer) ∧
    (∀ names : List Str,
      BufferInvariant (NewXmlStreamParser names).toolNames
        (NewXmlStreamParser names).buffer) := by
  constructor
  · intro p c text rs p' c' h0 h
    unfold PushText at h
    by_cases ht : text = []
    · rw [if_pos ht] at h
      have h' := Except.ok.inj h
      have hp : p = p' := congrArg (fun x => x.2.1) h'
      rw [← hp]
      exact h0
    · rw [if_neg ht] at h
      split at h
      · exact Except.noConfusion h
      · rename_i rs0 buf1 c1 heq
        have h' := Except.ok.inj h
        have hp : (⟨p.toolNames, buf1⟩ : XmlStreamParser) = p' :=
          congrArg (fun x => x.2.1) h'
        have hinv := pushLoop_invariant ((p.buffer ++ text).length + 1) p.toolNames
          (p.buffer ++ text) c rs0 buf1 c1 (by omega) heq
        rw [← hp]
        exact hinv
  · intro names
    exact Or.inl rfl

/-- Witness for C7: pushing `ab<fo` into a fresh parser knowing `foo` emits
`ab` and keeps exactly the partial tag candidate `<fo`, which satisfies the
invariant. -/
theorem C7_buffer_invariant_witness :
    BufferInvariant [("foo".data)] ("<fo".data) :=
  C7_buffer_invariant.1 (NewXmlStreamParser [("foo".data)]) 0 ("ab<fo".data)
    [ParseResult.text ("ab".data)] ⟨[("foo".data)], ("<fo".data)⟩ 0
    (Or.inl rfl) (by with_unfolding_all rfl)

/-- **C2** counterexample.  The claim says that after a boundary rejection the
locator keeps searching and still finds a later valid occurrence of the same
name, i.e. returns the smallest index at which any known name opens with a
valid boundary.  With known name `foo` and buffer `<foox <foo>`, the first
occurrence of `<foo` (index 0) fails the boundary check on `x` and the
locator abandons the name entirely, returning no candidate — even though a
boundary-valid occurrence exists at index 6. -/
theorem C2_counterexample :
    findNextToolStartIndex [("foo".data)] ("<foox <foo>".data) = none ∧
    ('<' :: ("foo".data)).isPrefixOf (("<foox <foo>".data).drop 6) = true ∧
    boundaryOkAt ("<foox <foo>".data) (6 + 1 + ("foo".data).length) = true := by
  refine ⟨by decide, by decide, by decide⟩

/-- **C2** amended.  `findNextToolStartIndex` inspects only the *first*
occurrence of each known name's opening tag: a name whose first occurrence
fails the boundary rule is skipped for the whole scan (later occurrences of
that name are never considered).  The locator returns `none` exactly when
every name's first occurrence is missing or boundary-invalid, and otherwise
returns a boundary-valid first occurrence of minimal index among the
surviving names. -/
theorem C2_locator_first_occurrence (names : List Str) (buf : Str) :
    (findNextToolStartIndex names buf = none →
      ∀ m ∈ names, ∀ j, strIndex ('<' :: m) buf = some j →
        boundaryOkAt buf (j + 1 + m.length) = false) ∧
    (∀ i n, findNextToolStartIndex names buf = some (i, n) →
      n ∈ names ∧ strIndex ('<' :: n) buf = some i ∧
      boundaryOkAt buf (i + 1 + n.length) = true ∧
      ∀ m ∈ names, ∀ j, strIndex ('<' :: m) buf = some j →
        boundaryOkAt buf (j + 1 + m.length) = true → i ≤ j) := by
  constructor
  · exact findNext_none names buf
  · intro i n h
    rcases findNext_some names buf i n h with ⟨⟨h1, h2, h3⟩, h4⟩
    exact ⟨h1, h2, h3, h4⟩

/-- Witness for the amended C2: on buffer `ab<foo>` the locator reports the
boundary-valid first occurrence of `foo` at index 2. -/
theorem C2_locator_first_occurrence_witness :
    strIndex ('<' :: ("foo".data)) ("ab<foo>".data) = some 2 ∧
    boundaryOkAt ("ab<foo>".data) (2 + 1 + ("foo".data).length) = true := by
  have h := (C2_locator_first_occurrence [("foo".data)] ("ab<foo>".data)).2
    2 ("foo".data) (by decide)
  exact ⟨h.2.1, h.2.2.1⟩

/-! ## TryParseMcpToolCallXml equations -/

lemma matchOpenEnd_ne_nil (xml name : Str) (oe : Nat)
    (h : matchOpenEnd xml name = some oe) : xml ≠ [] := by
  intro hx
  subst hx
  simp [matchOpenEnd] at h

lemma tryParse_eq_of_matches (xml name : Str) (c : Nat) (oe cs : Nat)
    (hn : name ≠ []) (hx : xml ≠ [])
    (hoe : matchOpenEnd xml name = some oe)
    (hcs : matchCloseStart name xml = some cs) :
    TryParseMcpToolCallXml xml name c =
      if oe ≤ cs then
        (if trimSpace ((xml.drop oe).take (cs - oe)) = [] then
          .ok (some ⟨name, [], (MakeToolUseID name c).1⟩, (MakeToolUseID name c).2)
        else
          match jsonUnmarshalObject (trimSpace ((xml.drop oe).take (cs - oe))) with
          | none => .ok (none, c)
          | some fields =>
            .ok (some ⟨name, fields, (MakeToolUseID name c).1⟩, (MakeToolUseID name c).2))
      else .error () := by
  simp [TryParseMcpToolCallXml, hn, hx, hoe, hcs]

lemma jsonParse_nil : jsonParse [] = none := by with_unfolding_all rfl

/-- **C10** counterexample.  The claim says every complete element whose
trimmed interior is well-formed JSON but not a JSON object is rejected and
passed through verbatim as text.  The interior `null` refutes it:
`json.Unmarshal` into a `map[string]interface{}` documents top-level `null`
as a no-op returning a nil error and leaving the map nil, so on
`<t>null</t>` the program returns a tool call (nil argument mapping) and the
tokenizer emits a tool segment, not the verbatim text segment the claim
requires — even though `null` is well-formed JSON and not an object. -/
theorem C10_counterexample :
    jsonParse ("null".data) = some JsonVal.jnull ∧
    (∀ fs, JsonVal.jnull ≠ JsonVal.jobj fs) ∧
    TryParseMcpToolCallXml ("<t>null</t>".data) ("t".data) 0 =
      .ok (some ⟨("t".data), [], (MakeToolUseID ("t".data) 0).1⟩,
        (MakeToolUseID ("t".data) 0).2) ∧
    runChunks [("t".data)] [("<t>null</t>".data)] =
      .ok [ParseResult.tool ("t".data) []] := by
  refine ⟨?_, fun fs h => JsonVal.noConfusion h, ?_, ?_⟩
  · with_unfolding_all rfl
  · with_unfolding_all rfl
  · with_unfolding_all rfl

/-- **C10** amended.  A complete element of a known tool whose trimmed
interior is well-formed JSON that is neither a JSON object nor the literal
`null` is rejected by `TryParseMcpToolCallXml` (`json.Unmarshal` into a map
fails with a type error on such top levels), and the streaming tokenizer
therefore emits the span verbatim as one text segment — shown concretely for
`<t>[1,2]</t>`; a `null` interior is instead accepted as a no-op and yields
a tool segment with a nil (empty) argument mapping. -/
theorem C10_json_nonobject_nonnull_rejected :
    (∀ (xml name : Str) (c : Nat) (oe cs : Nat) (v : JsonVal),
      name ≠ [] →
      matchOpenEnd xml name = some oe →
      matchCloseStart name xml = some cs →
      oe ≤ cs →
      jsonParse (trimSpace ((xml.drop oe).take (cs - oe))) = some v →
      (∀ fs, v ≠ JsonVal.jobj fs) →
      v ≠ JsonVal.jnull →
      TryParseMcpToolCallXml xml name c = .ok (none, c)) ∧
    runChunks [("t".data)] [("<t>[1,2]</t>".data)] =
      .ok [ParseResult.text ("<t>[1,2]</t>".data)] := by
  constructor
  · intro xml name c oe cs v hn hoe hcs hle hjson hnot hnull
    have hx : xml ≠ [] := matchOpenEnd_ne_nil xml name oe hoe
    rw [tryParse_eq_of_matches xml name c oe cs hn hx hoe hcs, if_pos hle]
    have hne : trimSpace ((xml.drop oe).take (cs - oe)) ≠ [] := by
      intro he
      rw [he, jsonParse_nil] at hjson
      exact Option.noConfusion hjson
    rw [if_neg hne]
    have hJ : jsonUnmarshalObject (trimSpace ((xml.drop oe).take (cs - oe))) = none := by
      unfold jsonUnmarshalObject
      rw [hjson]
      cases v with
      | jobj fs => exact absurd rfl (hnot fs)
      | jnull => exact absurd rfl hnull
      | jbool b => rfl
      | jnum s => rfl
      | jstr s => rfl
      | jarr xs => rfl
    rw [hJ]
  · with_unfolding_all rfl

/-- Witness for the amended C10 at `<t>[1,2]</t>`: well-formed JSON array
body, rejected with the counter untouched. -/
theorem C10_json_nonobject_nonnull_rejected_witness :
    TryParseMcpToolCallXml ("<t>[1,2]</t>".data) ("t".data) 0 = .ok (none, 0) :=
  C10_json_nonobject_nonnull_rejected.1 ("<t>[1,2]</t>".data) ("t".data) 0 3 8
    (JsonVal.jarr [JsonVal.jnum ("1".data), JsonVal.jnum ("2".data)])
    (by decide) (by decide) (by decide) (by decide)
    (by with_unfolding_all rfl) (fun fs h => JsonVal.noConfusion h)
    (fun h => JsonVal.noConfusion h)

/-- **C6** (confirmed).  For every known tool name, a complete element whose
interior trims to nothing (empty or whitespace-only body) parses to exactly
one tool call carrying that name, an empty argument mapping, and the freshly
minted non-empty id from the incremented counter; concretely, both
`<tool></tool>` and `<tool>  </tool>` stream to exactly one tool segment. -/
theorem C6_empty_or_whitespace_body :
    (∀ (xml name : Str) (c : Nat) (oe cs : Nat),
      name ≠ [] →
      matchOpenEnd xml name = some oe →
      matchCloseStart name xml = some cs →
      oe ≤ cs →
      trimSpace ((xml.drop oe).take (cs - oe)) = [] →
      TryParseMcpToolCallXml xml name c =
        .ok (some ⟨name, [], (MakeToolUseID name c).1⟩, (MakeToolUseID name c).2) ∧
      (MakeToolUseID name c).1 ≠ []) ∧
    runChunks [("tool".data)] [("<tool>  </tool>".data)] =
      .ok [ParseResult.tool ("tool".data) []] ∧
    runChunks [("tool".data)] [("<tool></tool>".data)] =
      .ok [ParseResult.tool ("tool".data) []] := by
  refine ⟨?_, by with_unfolding_all rfl, by with_unfolding_all rfl⟩
  intro xml name c oe cs hn hoe hcs hle htrim
  have hx : xml ≠ [] := matchOpenEnd_ne_nil xml name oe hoe
  constructor
  · rw [tryParse_eq_of_matches xml name c oe cs hn hx hoe hcs, if_pos hle, if_pos htrim]
  · unfold MakeToolUseID
    simp

/-- Witness for C6 at `<tool>  </tool>` (whitespace-only body). -/
theorem C6_empty_or_whitespace_body_witness :
    TryParseMcpToolCallXml ("<tool>  </tool>".data) ("tool".data) 0 =
      .ok (some ⟨("tool".data), [], (MakeToolUseID ("tool".data) 0).1⟩,
        (MakeToolUseID ("tool".data) 0).2) ∧
    (MakeToolUseID ("tool".data) 0).1 ≠ [] :=
  C6_empty_or_whitespace_body.1 ("<tool>  </tool>".data) ("tool".data) 0 6 8
    (by decide) (by decide) (by decide) (by decide) (by decide)

/-- **C9** counterexample.  The claim says the toggle is disabled *exactly*
for values that are case-insensitively `0`, `false`, `no`, `off`.  But the
code also trims whitespace first: `" off"` disables the subsystem although it
is not (even after lowercasing) equal to any of the four strings. -/
theorem C9_counterexample :
    IsMcpXmlEnabled (" off".data) = false ∧
    toLowerAscii (" off".data) ≠ ("0".data) ∧
    toLowerAscii (" off".data) ≠ ("false".data) ∧
    toLowerAscii (" off".data) ≠ ("no".data) ∧
    toLowerAscii (" off".data) ≠ ("off".data) := by
  refine ⟨by decide, by decide, by decide, by decide, by decide⟩

/-- **C9** amended.  The toggle is active for the unset/empty value, and is
disabled exactly when the value, after trimming whitespace and lowercasing,
is one of `0`, `false`, `no`, `off`. -/
theorem C9_toggle_semantics (raw : Str) :
    IsMcpXmlEnabled [] = true ∧
    (IsMcpXmlEnabled raw = false ↔
      (raw ≠ [] ∧ (toLowerAscii (trimSpace raw) = ("0".data) ∨
        toLowerAscii (trimSpace raw) = ("false".data) ∨
        toLowerAscii (trimSpace raw) = ("no".data) ∨
        toLowerAscii (trimSpace raw) = ("off".data)))) := by
  refine ⟨rfl, ?_⟩
  unfold IsMcpXmlEnabled
  by_cases hr : raw = []
  · rw [if_pos hr]
    simp [hr]
  · rw [if_neg hr]
    simp [hr]
    tauto

/-- Witness for the amended C9: `OFF` disables the subsystem. -/
theorem C9_toggle_semantics_witness :
    IsMcpXmlEnabled ("OFF".data) = false :=
  (C9_toggle_semantics ("OFF".data)).2.mpr
    ⟨by decide, Or.inr (Or.inr (Or.inr (by decide)))⟩

/-! ## Identifier arithmetic (claim C8) -/

lemma decValue_append (ds : Str) (c : Char) :
    decValue (ds ++ [c]) = 10 * decValue ds + (c.toNat - 48) := by
  unfold decValue
  rw [List.foldl_append]
  rfl

lemma digitCharOf_toNat (n : Nat) (h : n < 10) :
    (digitCharOf n).toNat - 48 = n := by
  interval_cases n <;> decide

lemma digitCharOf_ne_dash (n : Nat) : digitCharOf n ≠ '-' := by
  unfold digitCharOf
  split <;> decide

lemma decValue_decDigits : ∀ (fuel n : Nat), n ≤ fuel →
    decValue (decDigits fuel n) = n := by
  intro fuel
  induction fuel with
  | zero =>
    intro n h
    obtain rfl : n = 0 := by omega
    rfl
  | succ f ih =>
    intro n h
    by_cases h10 : n < 10
    · show decValue (if n < 10 then [digitCharOf n] else _) = n
      rw [if_pos h10]
      show 10 * 0 + ((digitCharOf n).toNat - 48) = n
      rw [digitCharOf_toNat n h10]
      omega
    · show decValue (if n < 10 then _ else decDigits f (n / 10) ++ [digitCharOf (n % 10)]) = n
      rw [if_neg h10, decValue_append, ih (n / 10) (by omega),
        digitCharOf_toNat (n % 10) (by omega)]
      omega

lemma natDec_inj (a b : Nat) (h : natDec a = natDec b) : a = b := by
  have ha := decValue_decDigits (a + 1) a (by omega)
  have hb := decValue_decDigits (b + 1) b (by omega)
  unfold natDec at h
  rw [← ha, ← hb, h]

lemma decDigits_no_dash : ∀ (fuel n : Nat), '-' ∉ decDigits fuel n := by
  intro fuel
  induction fuel with
  | zero =>
    intro n
    simp [decDigits]
  | succ f ih =>
    intro n
    by_cases h10 : n < 10
    · show '-' ∉ (if n < 10 then [digitCharOf n] else _)
      rw [if_pos h10]
      simp [(digitCharOf_ne_dash n).symm]
    · show '-' ∉ (if n < 10 then _ else decDigits f (n / 10) ++ [digitCharOf (n % 10)])
      rw [if_neg h10]
      simp only [List.mem_append, List.mem_singleton]
      rintro (hm | hm)
      · exact ih (n / 10) hm
      · exact digitCharOf_ne_dash (n % 10) hm.symm

/-- Splitting at the first dash is unambiguous when the prefixes are
dash-free. -/
lemma dashfree_prefix_inj :
    ∀ (u v a b : Str), '-' ∉ u → '-' ∉ v →
      u ++ '-' :: a = v ++ '-' :: b → u = v ∧ a = b := by
  intro u
  induction u with
  | nil =>
    intro v a b hu hv h
    cases v with
    | nil =>
      simp only [List.nil_append] at h
      exact ⟨rfl, List.cons.inj h |>.2⟩
    | cons d w =>
      simp only [List.nil_append, List.cons_append] at h
      have hd : '-' = d := (List.cons.inj h).1
      exact absurd (hd ▸ List.mem_cons_self d w) hv
  | cons c w ih =>
    intro v a b hu hv h
    cases v with
    | nil =>
      simp only [List.nil_append, List.cons_append] at h
      have hc : c = '-' := (List.cons.inj h).1
      exact absurd (hc ▸ List.mem_cons_self c w) hu
    | cons d x =>
      simp only [List.cons_append] at h
      have hcd : c = d := (List.cons.inj h).1
      have hrest := (List.cons.inj h).2
      have hw : '-' ∉ w := fun hm => hu (List.mem_cons_of_mem c hm)
      have hx : '-' ∉ x := fun hm => hv (List.mem_cons_of_mem d hm)
      rcases ih x a b hw hx hrest with ⟨h1, h2⟩
      exact ⟨by rw [hcd, h1], h2⟩

/-- Two generated ids agree only if their counter values agree, whatever the
tool names were (the counter is the suffix after the last dash, and decimal
digit strings contain no dash). -/
lemma makeID_counter_inj (n1 n2 : Str) (k1 k2 : Nat)
    (h : n1 ++ '-' :: natDec k1 = n2 ++ '-' :: natDec k2) : k1 = k2 := by
  have hrev := congrArg List.reverse h
  rw [List.reverse_append, List.reverse_append, List.reverse_cons, List.reverse_cons] at hrev
  rw [List.append_assoc, List.append_assoc, List.singleton_append, List.singleton_append]
    at hrev
  have h1 : '-' ∉ (natDec k1).reverse := by
    intro hm
    exact decDigits_no_dash (k1 + 1) k1 (List.mem_reverse.mp hm)
  have h2 : '-' ∉ (natDec k2).reverse := by
    intro hm
    exact decDigits_no_dash (k2 + 1) k2 (List.mem_reverse.mp hm)
  rcases dashfree_prefix_inj (natDec k1).reverse (natDec k2).reverse
    n1.reverse n2.reverse h1 h2 hrev with ⟨hd, -⟩
  exact natDec_inj k1 k2 (List.reverse_injective hd)

lemma runMakeToolUseID_length (c : Nat) (ns : List Str) :
    (runMakeToolUseID c ns).length = ns.length := by
  induction ns generalizing c with
  | nil => rfl
  | cons n rest ih =>
    show ((MakeToolUseID n c).1 :: runMakeToolUseID (MakeToolUseID n c).2 rest).length =
      rest.length + 1
    simp [ih]

lemma runMakeToolUseID_get :
    ∀ (ns : List Str) (c i : Nat) (h : i < ns.length),
      (runMakeToolUseID c ns).get? i =
        some (ns.get ⟨i, h⟩ ++ '-' :: natDec ((c + i + 1) % U64)) := by
  intro ns
  induction ns with
  | nil =>
    intro c i h
    exact absurd h (by simp)
  | cons n rest ih =>
    intro c i h
    cases i with
    | zero =>
      rfl
    | succ i' =>
      show (runMakeToolUseID ((c + 1) % U64) rest).get? i' = _
      rw [ih ((c + 1) % U64) i' (by simpa using Nat.lt_of_succ_lt_succ h)]
      have harith : ((c + 1) % U64 + i' + 1) % U64 = (c + (i' + 1) + 1) % U64 := by
        rw [Nat.add_assoc ((c + 1) % U64) i' 1, Nat.mod_add_mod]
        congr 1
        omega
      rw [harith]
      rfl

lemma U64_pos : 0 < U64 := by
  unfold U64
  positivity

lemma one_lt_U64 : 1 < U64 := by
  unfold U64
  norm_num

/-- **C8** counterexample.  The claim says *any* number of mint calls yields
pairwise-distinct ids.  The counter is a `uint64` and wraps: call number
`2 ^ 64 + 1` reuses counter value 1, so with a repeated name the id list of
`2 ^ 64 + 1` calls contains a duplicate. -/
theorem C8_counterexample :
    ¬ (runMakeToolUseID 0 (List.replicate (U64 + 1) ('a' :: []))).Nodup := by
  intro hnd
  have hlen := runMakeToolUseID_length 0 (List.replicate (U64 + 1) ('a' :: []))
  have hrep : (List.replicate (U64 + 1) ('a' :: [])).length = U64 + 1 := by simp
  have h0 := runMakeToolUseID_get (List.replicate (U64 + 1) ('a' :: [])) 0 0
    (by rw [hrep]; omega)
  have h1 := runMakeToolUseID_get (List.replicate (U64 + 1) ('a' :: [])) 0 U64
    (by rw [hrep]; omega)
  have hmod0 : (0 + 0 + 1) % U64 = 1 := Nat.mod_eq_of_lt one_lt_U64
  have hmod1 : (0 + U64 + 1) % U64 = 1 := by
    have : 0 + U64 + 1 = 1 + U64 := by omega
    rw [this, Nat.add_mod_right]
    exact Nat.mod_eq_of_lt one_lt_U64
  rw [hmod0] at h0
  rw [hmod1] at h1
  have hget0 : (List.replicate (U64 + 1) ('a' :: [])).get ⟨0, by rw [hrep]; omega⟩ =
      ('a' :: []) := List.get_replicate _ _
  have hget1 : (List.replicate (U64 + 1) ('a' :: [])).get ⟨U64, by rw [hrep]; omega⟩ =
      ('a' :: []) := List.get_replicate _ _
  rw [hget0] at h0
  rw [hget1] at h1
  have hinj := List.nodup_iff_injective_get.mp hnd
  have hfin : (⟨0, by rw [hlen, hrep]; omega⟩ : Fin (runMakeToolUseID 0
      (List.replicate (U64 + 1) ('a' :: []))).length) =
      ⟨U64, by rw [hlen, hrep]; omega⟩ := by
    apply hinj
    have e0 := List.get?_eq_get (l := runMakeToolUseID 0 (List.replicate (U64 + 1) ('a' :: [])))
      (n := 0) (by rw [hlen, hrep]; omega)
    have e1 := List.get?_eq_get (l := runMakeToolUseID 0 (List.replicate (U64 + 1) ('a' :: [])))
      (n := U64) (by rw [hlen, hrep]; omega)
    rw [e0] at h0
    rw [e1] at h1
    exact Option.some.inj (h0.trans h1.symm)
  have : (0 : Nat) = U64 := congrArg Fin.val hfin
  exact absurd this (by have := U64_pos; omega)

/-- **C8** amended.  Up to `2 ^ 64` mint calls within one process (far beyond
any realistic stream count, but the `uint64` counter wraps after that) yield
pairwise-distinct identifiers, for arbitrary — repeated or dash-containing —
tool names: the counter value is recoverable from the id as the digits after
the last dash. -/
theorem C8_id_uniqueness (ns : List Str) (hlen : ns.length ≤ U64) :
    (runMakeToolUseID 0 ns).Nodup := by
  rw [List.nodup_iff_injective_get]
  intro a b hab
  rcases a with ⟨i, hi⟩
  rcases b with ⟨j, hj⟩
  have hi' : i < ns.length := by
    have hcopy := hi
    rwa [runMakeToolUseID_length] at hcopy
  have hj' : j < ns.length := by
    have hcopy := hj
    rwa [runMakeToolUseID_length] at hcopy
  have ei := runMakeToolUseID_get ns 0 i hi'
  have ej := runMakeToolUseID_get ns 0 j hj'
  have egi := List.get?_eq_get (l := runMakeToolUseID 0 ns) (n := i) hi
  have egj := List.get?_eq_get (l := runMakeToolUseID 0 ns) (n := j) hj
  rw [egi] at ei
  rw [egj] at ej
  have hsome : (some ((runMakeToolUseID 0 ns).get ⟨i, hi⟩) : Option Str) =
      some ((runMakeToolUseID 0 ns).get ⟨j, hj⟩) := by rw [hab]
  have hid := Option.some.inj ((ei.symm.trans hsome).trans ej)
  have hmod := makeID_counter_inj _ _ _ _ hid
  have hiu : i + 1 ≤ U64 := by omega
  have hju : j + 1 ≤ U64 := by omega
  refine Fin.ext ?_
  show i = j
  rcases Nat.lt_or_ge (i + 1) U64 with hlt1 | hge1
  · rcases Nat.lt_or_ge (j + 1) U64 with hlt2 | hge2
    · rw [Nat.zero_add, Nat.zero_add, Nat.mod_eq_of_lt hlt1, Nat.mod_eq_of_lt hlt2] at hmod
      omega
    · have hj1 : j + 1 = U64 := by omega
      rw [Nat.zero_add, Nat.zero_add, hj1, Nat.mod_self, Nat.mod_eq_of_lt hlt1] at hmod
      omega
  · have hi1 : i + 1 = U64 := by omega
    rcases Nat.lt_or_ge (j + 1) U64 with hlt2 | hge2
    · rw [Nat.zero_add, Nat.zero_add, hi1, Nat.mod_self, Nat.mod_eq_of_lt hlt2] at hmod
      omega
    · have hj1 : j + 1 = U64 := by omega
      omega

/-- Witness for the amended C8: three successive mints (with a repeated and a
dash-containing name) give three distinct identifiers. -/
theorem C8_id_uniqueness_witness :
    (runMakeToolUseID 0 [("a".data), ("a-1".data), ("a".data)]).Nodup :=
  C8_id_uniqueness [("a".data), ("a-1".data), ("a".data)]
    (by unfold U64; norm_num)

/-! ## Generic boundary-precision analysis (claim C4) -/

lemma cons_isPrefixOf_cons (x y : Char) (xs ys : Str) :
    (x :: xs).isPrefixOf (y :: ys) = (x == y && xs.isPrefixOf ys) := rfl

lemma isPrefixOf_append_self (l r : Str) : l.isPrefixOf (l ++ r) = true :=
  List.isPrefixOf_iff_prefix.mpr (List.prefix_append l r)

lemma tagNameChar_facts {c : Char} (h : isTagNameChar c = true) :
    c ≠ '<' ∧ c ≠ '>' ∧ c ≠ '/' ∧ isRegexSpace c = false := by
  unfold isTagNameChar at h
  simp only [Bool.not_eq_eq_eq_not, Bool.not_true, Bool.or_eq_false_iff,
    decide_eq_false_iff_not] at h
  tauto

lemma tagNameChar_not_boundary {c : Char} (h : isTagNameChar c = true) :
    isBoundaryChar c = false := by
  rcases tagNameChar_facts h with ⟨h1, h2, h3, h4⟩
  unfold isRegexSpace at h4
  simp only [Bool.or_eq_false_iff, decide_eq_false_iff_not] at h4
  unfold isBoundaryChar
  simp only [Bool.or_eq_false_iff, decide_eq_false_iff_not]
  tauto

lemma scanFirst_cons_false (p : Str → Bool) (c : Char) (t : Str)
    (h : p (c :: t) = false) :
    scanFirst p (c :: t) = (scanFirst p t).map (fun k => k + 1) := by
  rw [scanFirst_cons, if_neg (by simp [h])]

lemma scanFirst_cons_true (p : Str → Bool) (c : Char) (t : Str)
    (h : p (c :: t) = true) : scanFirst p (c :: t) = some 0 := by
  rw [scanFirst_cons, if_pos h]

/-- A scanner whose predicate requires a leading `<` skips a block of
tag-name characters. -/
lemma scanFirst_name_block (p : Str → Bool) (xs rest : Str)
    (hhead : ∀ u : Str, u.head? ≠ some '<' → p u = false)
    (hxs : ∀ c ∈ xs, isTagNameChar c = true) :
    scanFirst p (xs ++ rest) = (scanFirst p rest).map (fun k => k + xs.length) := by
  apply scanFirst_append_of_not
  intro i hi
  apply hhead
  rw [List.head?_drop, ← List.get?_eq_getElem?, List.get?_append hi]
  intro hc
  have hmem : '<' ∈ xs := List.get?_mem hc
  exact absurd rfl (tagNameChar_facts (hxs '<' hmem)).1

lemma closeMatchHere_false_head (name u : Str) (hu : u.head? ≠ some '<') :
    closeMatchHere name u = false := by
  unfold closeMatchHere
  rw [if_neg (by simp [isPrefixOf_head_ne hu])]

lemma head_ne_of_ne {c a : Char} (t : Str) (h : c ≠ a) : (c :: t).head? ≠ some a := by
  simp [h]

lemma isPrefixOf_cons2_append (x y : Char) (l r : Str) :
    (x :: y :: l).isPrefixOf (x :: y :: (l ++ r)) = true := by
  rw [cons_isPrefixOf_cons, cons_isPrefixOf_cons]
  simp [isPrefixOf_append_self]

lemma isPrefixOf_cons_head_ne2 (x c : Char) (r t : Str) (h : c ≠ x) :
    (x :: r).isPrefixOf (c :: t) = false :=
  isPrefixOf_head_ne (head_ne_of_ne t h)

/-- Canonical right-nested view of the element. -/
lemma elemOf_eq (b : Str) :
    elemOf b = '<' :: (b ++ ('>' :: lbrace :: rbrace :: ('<' :: ('/' :: (b ++ ['>']))))) := by
  simp [elemOf]

lemma strIndex_at_zero (needle hay : Str) (h : needle.isPrefixOf hay = true) :
    strIndex needle hay = some 0 := by
  cases hay with
  | nil =>
    show scanFirst _ [] = some 0
    rw [scanFirst_nil, if_pos h]
  | cons c t => exact scanFirst_cons_true _ c t h

lemma elemOf_length (b : Str) : (elemOf b).length = 2 * b.length + 7 := by
  simp [elemOf]
  omega

lemma elemOf_ne_nil (b : Str) : elemOf b ≠ [] := by
  simp [elemOf]

lemma elemOf_get_gt (b : Str) : (elemOf b).get? (1 + b.length) = some '>' := by
  have h1 : 1 + b.length = b.length + 1 := by omega
  rw [h1, elemOf_eq]
  rw [List.get?_cons_succ, List.get?_append_right (le_refl b.length), Nat.sub_self]
  rfl

lemma elemOf_boundary_gt (b : Str) : boundaryOkAt (elemOf b) (0 + 1 + b.length) = true := by
  have h : 0 + 1 + b.length = 1 + b.length := by omega
  rw [h]
  unfold boundaryOkAt
  rw [elemOf_get_gt]
  decide

lemma elemOf_open_prefix_full (b : Str) : ('<' :: b).isPrefixOf (elemOf b) = true := by
  rw [elemOf_eq, cons_isPrefixOf_cons]
  simp [isPrefixOf_append_self]

lemma elemOf_open_prefix_short (a s : Str) :
    ('<' :: a).isPrefixOf (elemOf (a ++ s)) = true := by
  rw [elemOf_eq, cons_isPrefixOf_cons, List.append_assoc]
  simp [isPrefixOf_append_self]

lemma elemOf_boundary_short (a s : Str) (hs : s ≠ [])
    (hsname : ∀ c ∈ s, isTagNameChar c = true) :
    boundaryOkAt (elemOf (a ++ s)) (0 + 1 + a.length) = false := by
  cases s with
  | nil => exact absurd rfl hs
  | cons sc st =>
    have hscn : isTagNameChar sc = true := hsname sc (List.mem_cons_self sc st)
    have h : 0 + 1 + a.length = a.length + 1 := by omega
    rw [h]
    unfold boundaryOkAt
    have hget : (elemOf (a ++ sc :: st)).get? (a.length + 1) = some sc := by
      rw [elemOf_eq]
      rw [List.get?_cons_succ, List.append_assoc,
        List.get?_append_right (le_refl a.length), Nat.sub_self]
      rfl
    rw [hget]
    exact tagNameChar_not_boundary hscn

lemma elemOf_findNext_first (a s : Str) (hs : s ≠ [])
    (hsname : ∀ c ∈ s, isTagNameChar c = true) :
    findNextToolStartIndex [a, a ++ s] (elemOf (a ++ s)) = some (0, a ++ s) := by
  unfold findNextToolStartIndex
  rw [List.foldl_cons, List.foldl_cons, List.foldl_nil]
  rw [considerName_bad_eq _ none a 0
    (strIndex_at_zero _ _ (elemOf_open_prefix_short a s))
    (elemOf_boundary_short a s hs hsname)]
  exact considerName_good_none_eq _ (a ++ s) 0
    (strIndex_at_zero _ _ (elemOf_open_prefix_full (a ++ s)))
    (elemOf_boundary_gt (a ++ s))

lemma elemOf_findNext_second (a s : Str) (hs : s ≠ [])
    (hsname : ∀ c ∈ s, isTagNameChar c = true) :
    findNextToolStartIndex [a ++ s, a] (elemOf (a ++ s)) = some (0, a ++ s) := by
  unfold findNextToolStartIndex
  rw [List.foldl_cons, List.foldl_cons, List.foldl_nil]
  rw [considerName_good_none_eq _ (a ++ s) 0
    (strIndex_at_zero _ _ (elemOf_open_prefix_full (a ++ s)))
    (elemOf_boundary_gt (a ++ s))]
  exact considerName_bad_eq _ (some (0, a ++ s)) a 0
    (strIndex_at_zero _ _ (elemOf_open_prefix_short a s))
    (elemOf_boundary_short a s hs hsname)

lemma elemOf_close_prefix_false (bc : Char) (bt : Str) (hbcn : isTagNameChar bc = true) :
    ('<' :: '/' :: (bc :: bt)).isPrefixOf (elemOf (bc :: bt)) = false := by
  rw [elemOf_eq, cons_isPrefixOf_cons, List.cons_append]
  rw [isPrefixOf_cons_head_ne2 '/' bc _ _ (fun hc => (tagNameChar_facts hbcn).2.2.1 hc)]
  simp

lemma elemOf_close_strIndex (b : Str) (hb : b ≠ [])
    (hbname : ∀ c ∈ b, isTagNameChar c = true) :
    strIndex ('<' :: '/' :: b) (elemOf b) = some (b.length + 4) := by
  cases b with
  | nil => exact absurd rfl hb
  | cons bc bt =>
    have hbcn := hbname bc (List.mem_cons_self bc bt)
    have hpre := elemOf_close_prefix_false bc bt hbcn
    rw [elemOf_eq] at hpre
    unfold strIndex
    rw [elemOf_eq]
    rw [scanFirst_cons_false _ _ _ hpre]
    rw [scanFirst_name_block _ (bc :: bt) _
      (fun u hu => isPrefixOf_head_ne hu) hbname]
    rw [scanFirst_cons_false _ _ _ (isPrefixOf_head_ne (head_ne_of_ne _ (by decide)))]
    rw [scanFirst_cons_false _ _ _ (isPrefixOf_head_ne (head_ne_of_ne _ (by decide)))]
    rw [scanFirst_cons_false _ _ _ (isPrefixOf_head_ne (head_ne_of_ne _ (by decide)))]
    have hfin : scanFirst (fun u => ('<' :: '/' :: (bc :: bt)).isPrefixOf u)
        ('<' :: ('/' :: ((bc :: bt) ++ ['>']))) = some 0 :=
      scanFirst_cons_true _ _ _ (isPrefixOf_cons2_append '<' '/' (bc :: bt) ['>'])
    rw [hfin]
    simp only [Option.map_some', List.length_cons]
    exact congrArg some (by omega)

lemma elemOf_findClose (b : Str) (hb : b ≠ [])
    (hbname : ∀ c ∈ b, isTagNameChar c = true) :
    findCloseTagEndIndex (elemOf b) b = some (2 * b.length + 7) := by
  have hlen := elemOf_length b
  simp only [findCloseTagEndIndex, elemOf_close_strIndex b hb hbname, hlen]
  rw [if_neg (by omega)]
  have hdrop : (elemOf b).drop (b.length + 4 + 2 + b.length) = ['>'] := by
    have hJ : elemOf b =
        ('<' :: b ++ '>' :: lbrace :: rbrace :: '<' :: '/' :: b) ++ ['>'] := by
      simp [elemOf]
    rw [hJ]
    refine List.drop_left' ?_
    simp
    omega
  rw [hdrop]
  have hone : strIndex ['>'] ['>'] = some 0 := by decide
  simp only [hone]
  exact congrArg some (by omega)

lemma elemOf_matchOpenEnd (b : Str) : matchOpenEnd (elemOf b) b = some (b.length + 2) := by
  have htw : (elemOf b).takeWhile isRegexSpace = [] := by
    rw [elemOf_eq, List.takeWhile_cons, if_neg (by decide)]
  simp only [matchOpenEnd, htw, List.length_nil, List.drop_zero,
    elemOf_open_prefix_full b, if_true]
  have h01 : 0 + 1 + b.length = 1 + b.length := by omega
  rw [h01, elemOf_get_gt]
  simp only []
  rw [if_pos trivial]
  exact congrArg some (by omega)

lemma elemOf_drop_close (b : Str) :
    ('<' :: '/' :: (b ++ ['>'])).drop (2 + b.length) = ['>'] := by
  have hview : ('<' :: '/' :: (b ++ ['>'])) = ('<' :: '/' :: b) ++ ['>'] := by simp
  rw [hview]
  refine List.drop_left' ?_
  simp
  omega

lemma closeMatchHere_elem_end (b : Str) :
    closeMatchHere b ('<' :: '/' :: (b ++ ['>'])) = true := by
  unfold closeMatchHere
  rw [if_pos (isPrefixOf_cons2_append '<' '/' b ['>'])]
  rw [elemOf_drop_close b]
  decide

lemma elemOf_matchCloseStart (b : Str) (hb : b ≠ [])
    (hbname : ∀ c ∈ b, isTagNameChar c = true) :
    matchCloseStart b (elemOf b) = some (b.length + 4) := by
  cases b with
  | nil => exact absurd rfl hb
  | cons bc bt =>
    have hbcn := hbname bc (List.mem_cons_self bc bt)
    have hpre := elemOf_close_prefix_false bc bt hbcn
    rw [elemOf_eq] at hpre
    unfold matchCloseStart
    rw [elemOf_eq]
    have hstep1 : closeMatchHere (bc :: bt) ('<' :: ((bc :: bt) ++ ('>' :: lbrace :: rbrace ::
        ('<' :: ('/' :: ((bc :: bt) ++ ['>'])))))) = false := by
      unfold closeMatchHere
      rw [if_neg (by simp only [hpre]; decide)]
    rw [scanFirst_cons_false _ _ _ hstep1]
    rw [scanFirst_name_block _ (bc :: bt) _
      (fun u hu => closeMatchHere_false_head _ u hu) hbname]
    rw [scanFirst_cons_false _ _ _ (closeMatchHere_false_head _ _ (head_ne_of_ne _ (by decide)))]
    rw [scanFirst_cons_false _ _ _ (closeMatchHere_false_head _ _ (head_ne_of_ne _ (by decide)))]
    rw [scanFirst_cons_false _ _ _ (closeMatchHere_false_head _ _ (head_ne_of_ne _ (by decide)))]
    have hfin : scanFirst (closeMatchHere (bc :: bt))
        ('<' :: ('/' :: ((bc :: bt) ++ ['>']))) = some 0 :=
      scanFirst_cons_true _ _ _ (closeMatchHere_elem_end (bc :: bt))
    rw [hfin]
    simp only [Option.map_some', List.length_cons]
    exact congrArg some (by omega)

lemma elemOf_tryParse (b : Str) (hb : b ≠ [])
    (hbname : ∀ c ∈ b, isTagNameChar c = true) (c : Nat) :
    TryParseMcpToolCallXml (elemOf b) b c =
      .ok (some ⟨b, [], (MakeToolUseID b c).1⟩, (MakeToolUseID b c).2) := by
  rw [tryParse_eq_of_matches (elemOf b) b c (b.length + 2) (b.length + 4) hb
    (elemOf_ne_nil b) (elemOf_matchOpenEnd b) (elemOf_matchCloseStart b hb hbname)]
  rw [if_pos (by omega)]
  have hinner : ((elemOf b).drop (b.length + 2)).take (b.length + 4 - (b.length + 2)) =
      [lbrace, rbrace] := by
    have h2 : b.length + 4 - (b.length + 2) = 2 := by omega
    have hK : elemOf b = ('<' :: b ++ ['>']) ++
        (lbrace :: rbrace :: ('<' :: '/' :: b ++ ['>'])) := by
      simp [elemOf]
    rw [h2, hK, List.drop_left' (by simp)]
    rfl
  rw [hinner]
  have htr : trimSpace [lbrace, rbrace] = [lbrace, rbrace] := by decide
  rw [htr]
  rw [if_neg (by decide)]
  have hJ : jsonUnmarshalObject [lbrace, rbrace] = some [] := by with_unfolding_all rfl
  rw [hJ]

lemma strIndex_cons_nil (c : Char) (r : Str) : strIndex (c :: r) [] = none := rfl

lemma findNext_nil (names : List Str) : findNextToolStartIndex names [] = none := by
  unfold findNextToolStartIndex
  induction names with
  | nil => rfl
  | cons a l ih =>
    rw [List.foldl_cons, considerName_none_eq [] none a (strIndex_cons_nil '<' a)]
    exact ih

lemma split_nil (names : List Str) : splitBufferForPartialTag names [] = ([], []) := rfl

lemma pushLoop_nil (f : Nat) (names : List Str) (c : Nat) :
    pushLoop (f + 1) names [] c = .ok ([], [], c) := by
  rw [pushLoop_none_eq f names [] c (findNext_nil names)]
  simp [split_nil]

lemma pushLoop_close_run (f : Nat) (names : List Str) (buf : Str) (c : Nat) (n : Str)
    (ce : Nat) (call : McpToolCall) (c1 : Nat) (rs : List ParseResult) (bufF : Str)
    (cF : Nat)
    (h : findNextToolStartIndex names buf = some (0, n)) (hn : n ≠ [])
    (hc : findCloseTagEndIndex buf n = some ce)
    (htp : TryParseMcpToolCallXml (buf.take ce) n c = .ok (some call, c1))
    (hrec : pushLoop f names (buf.drop ce) c1 = .ok (rs, bufF, cF)) :
    pushLoop (f + 1) names buf c =
      .ok (ParseResult.tool call.name call.input :: rs, bufF, cF) := by
  have hc' : findCloseTagEndIndex (buf.drop 0) n = some ce := by
    rw [List.drop_zero]
    exact hc
  rw [pushLoop_close_eq f names buf c 0 n ce h hn hc']
  simp only [List.drop_zero, htp, hrec]
  simp

lemma runChunks_single (names : List Str) (hnew : NewXmlStreamParser names = ⟨names, []⟩)
    (text : Str) (ht : text ≠ []) (rs : List ParseResult) (c1 : Nat)
    (h : pushLoop (text.length + 1) names text 0 = .ok (rs, [], c1)) :
    runChunks names [text] = .ok rs := by
  have hpt : PushText ⟨names, []⟩ 0 text = .ok (rs, ⟨names, []⟩, c1) := by
    unfold PushText
    rw [if_neg ht]
    simp only [List.nil_append, h]
  unfold runChunks
  rw [hnew]
  simp [runChunks.go, hpt, Flush]

/-- **C4** counterexample.  The claim quantifies over every known-name set
holding a name and a strict extension of it.  Take `foo` and its extension
`foo bar` (names are arbitrary strings; this one continues with a boundary
character).  On the extension's complete element `<foo bar>{}</foo bar>`,
both names open at index 0 with a valid boundary, and when the map iteration
happens to consider `foo` first (modelled by registration order), the span is
closed by `</foo` and handed to the decoder under the name `foo`, whose
close-pattern does not match — so the whole element degrades to passthrough
text and no tool segment carries the longer name, even though the element is
a perfectly decodable `foo bar` call. -/
theorem C4_counterexample :
    runChunks [("foo".data), ("foo bar".data)]
        [("<foo bar>".data ++ [lbrace, rbrace] ++ "</foo bar>".data)] =
      .ok [ParseResult.text ("<foo bar>".data ++ [lbrace, rbrace] ++ "</foo bar>".data)] ∧
    TryParseMcpToolCallXml ("<foo bar>".data ++ [lbrace, rbrace] ++ "</foo bar>".data)
        ("foo bar".data) 0 =
      .ok (some ⟨("foo bar".data), [], (MakeToolUseID ("foo bar".data) 0).1⟩,
        (MakeToolUseID ("foo bar".data) 0).2) ∧
    toolSegNames
      [ParseResult.text ("<foo bar>".data ++ [lbrace, rbrace] ++ "</foo bar>".data)] = [] := by
  refine ⟨?_, ?_, rfl⟩
  · with_unfolding_all rfl
  · with_unfolding_all rfl

/-- **C4** amended.  For known names `a` and `a ++ s` where the extension's
continuation `s` starts with an ordinary tag-name character (no `<`, `>`,
`/` or whitespace — true of every real MCP tool name, and the condition the
counterexample shows to be necessary), the extension's complete element
`<a++s>{}</a++s>` streams to exactly one segment: a tool segment named
`a ++ s` with empty arguments — under either registration order, so the
shorter name never hijacks the element. -/
theorem C4_boundary_precision (a s : Str) (ha : a ≠ []) (hs : s ≠ [])
    (haname : ∀ c ∈ a, isTagNameChar c = true)
    (hsname : ∀ c ∈ s, isTagNameChar c = true) :
    runChunks [a, a ++ s] [elemOf (a ++ s)] = .ok [ParseResult.tool (a ++ s) []] ∧
    runChunks [a ++ s, a] [elemOf (a ++ s)] = .ok [ParseResult.tool (a ++ s) []] := by
  have hbne : a ++ s ≠ [] := by
    intro he
    exact ha (List.append_eq_nil.mp he).1
  have hbname : ∀ c ∈ a ++ s, isTagNameChar c = true := by
    intro c hc
    rcases List.mem_append.mp hc with hm | hm
    · exact haname c hm
    · exact hsname c hm
  have hdropI : (elemOf (a ++ s)).drop (2 * (a ++ s).length + 7) = [] := by
    rw [List.drop_eq_nil_iff, elemOf_length]
  have htake : (elemOf (a ++ s)).take (2 * (a ++ s).length + 7) = elemOf (a ++ s) := by
    rw [← elemOf_length]
    exact List.take_length _
  have hfuel : (elemOf (a ++ s)).length + 1 = (2 * (a ++ s).length + 6 + 1) + 1 := by
    rw [elemOf_length]
  have hrun : ∀ names : List Str,
      findNextToolStartIndex names (elemOf (a ++ s)) = some (0, a ++ s) →
      NewXmlStreamParser names = ⟨names, []⟩ →
      runChunks names [elemOf (a ++ s)] = .ok [ParseResult.tool (a ++ s) []] := by
    intro names hfn hnew
    refine runChunks_single names hnew (elemOf (a ++ s)) (elemOf_ne_nil _)
      [ParseResult.tool (a ++ s) []] ((MakeToolUseID (a ++ s) 0).2) ?_
    rw [hfuel]
    have hclose : findCloseTagEndIndex (elemOf (a ++ s)) (a ++ s) =
        some (2 * (a ++ s).length + 7) := elemOf_findClose (a ++ s) hbne hbname
    have htp0 : TryParseMcpToolCallXml
        ((elemOf (a ++ s)).take (2 * (a ++ s).length + 7)) (a ++ s) 0 =
        .ok (some ⟨a ++ s, [], (MakeToolUseID (a ++ s) 0).1⟩,
          (MakeToolUseID (a ++ s) 0).2) := by
      rw [htake]
      exact elemOf_tryParse (a ++ s) hbne hbname 0
    have hrec0 : pushLoop (2 * (a ++ s).length + 6 + 1) names
        ((elemOf (a ++ s)).drop (2 * (a ++ s).length + 7))
        (MakeToolUseID (a ++ s) 0).2 =
        .ok ([], [], (MakeToolUseID (a ++ s) 0).2) := by
      rw [hdropI]
      exact pushLoop_nil _ names _
    exact pushLoop_close_run (2 * (a ++ s).length + 6 + 1) names (elemOf (a ++ s)) 0
      (a ++ s) (2 * (a ++ s).length + 7)
      ⟨a ++ s, [], (MakeToolUseID (a ++ s) 0).1⟩ ((MakeToolUseID (a ++ s) 0).2)
      [] [] ((MakeToolUseID (a ++ s) 0).2) hfn hbne hclose htp0 hrec0
  constructor
  · refine hrun [a, a ++ s] (elemOf_findNext_first a s hs hsname) ?_
    simp [NewXmlStreamParser, List.filter_cons, ha, hbne]
  · refine hrun [a ++ s, a] (elemOf_findNext_second a s hs hsname) ?_
    simp [NewXmlStreamParser, List.filter_cons, ha, hbne]

/-- Witness for the amended C4 at the spec's own pair `foo` / `foobar`. -/
theorem C4_boundary_precision_witness :
    runChunks [("foo".data), ("foo".data ++ "bar".data)]
        [elemOf ("foo".data ++ "bar".data)] =
      .ok [ParseResult.tool ("foo".data ++ "bar".data) []] :=
  (C4_boundary_precision ("foo".data) ("bar".data) (by decide) (by decide)
    (by decide) (by decide)).1

end McpXml
